import Mathlib

/-!
Verification of the grid path generator in `Pcg/pcg.py` (class `PathGenerator`).

The Python code is shallowly embedded: Python ints become `Int`, the grid
becomes a total function `Int → Int → Cell` together with an `ok` flag that
latches `false` on any out-of-bounds access, and the process-wide random
source (`random.shuffle`, `random.choice`, `random.seed`) is modelled as an
explicit stream of naturals threaded through the computation.  Python `/` on
nonnegative operands, `//` with positive divisor and `%` with positive divisor
coincide with `Int`'s `/` and `%` (Euclidean division), which is what the
embedding uses; `round` is round-half-to-even on the exact rational, which
agrees with the float computation at every value reachable in the claims.
-/

namespace Pcg

/-- Cell states of the grid: `WALL_CHAR`, `PATH_CHAR`, `START_CHAR`, `END_CHAR`. -/
inductive Cell where
  | wall : Cell
  | path : Cell
  | startM : Cell
  | endM : Cell
deriving DecidableEq, Repr

/-- The pseudo-random source, modelled as an infinite stream of naturals.
Python's Mersenne Twister is stdlib code outside this repository; every draw
the generator makes (`random.shuffle` picks, `random.choice` index) is taken
from the head of the stream. -/
def Rng : Type := Nat → Nat

/-- Next raw draw from the stream. -/
def Rng.head (r : Rng) : Nat := r 0

/-- The stream with its first draw consumed. -/
def Rng.tail (r : Rng) : Rng := fun n => r (n + 1)

/-- `random.seed(k)`: the stream is replaced by one that depends only on the
seed.  The concrete values are irrelevant to every claim; what matters is that
the resulting stream is a function of `k` alone. -/
def seedRng (k : Int) : Rng := fun n => k.natAbs + n

/-- Constructor arguments of `PathGenerator.__init__`. -/
structure Params where
  startPos : Int × Int
  endPos : Int × Int
  spacing : Nat
  branching : Bool
  fillPercent : Int
  seed : Option Int

/-- The caller contract from the spec: coordinates at least 1, `fill_percent`
in 1–100 (`spacing ≥ 0` holds by the `Nat` type of `spacing`). -/
def Params.valid (p : Params) : Prop :=
  1 ≤ p.startPos.1 ∧ 1 ≤ p.startPos.2 ∧ 1 ≤ p.endPos.1 ∧ 1 ≤ p.endPos.2 ∧
    1 ≤ p.fillPercent ∧ p.fillPercent ≤ 100

instance (p : Params) : Decidable p.valid := by
  unfold Params.valid; infer_instance

/-- Python `round` applied to the exact rational `n / d` with `d > 0`:
round half to even (banker's rounding). -/
def pyRound (n d : Int) : Int :=
  let q := n / d
  let r := n % d
  if 2 * r < d then q else if d < 2 * r then q + 1 else if q % 2 = 0 then q else q + 1

/-- `_adjust_dim`: `k = math.ceil((dim - 1) / step); return k * step + 1`.
For `step > 0`, `⌈a / step⌉ = (a + step - 1) / step` in Euclidean division. -/
def adjustDim (step dim : Int) : Int :=
  (dim - 1 + (step - 1)) / step * step + 1

/-- `math.ceil((dim - 1) / step)` over a raw integer `step`, with Python's
`ZeroDivisionError` made explicit: the float division raises exactly when
`step = 0`, modelled as `none`.  For `step > 0` the exact ceiling is
`(a + step - 1) / step`; for `step < 0` Euclidean division `a / step` is
itself the ceiling of the rational `a / step`. -/
def pyCeil (a b : Int) : Option Int :=
  if b = 0 then none
  else if 0 < b then some ((a + b - 1) / b) else some (a / b)

/-- `_adjust_dim` over a raw integer `step` (as reached from a raw integer
`spacing` via `step = spacing + 1`), failure of the division included.
`adjustDimRaw_pos` below shows it agrees with `adjustDim` whenever
`step > 0`, i.e. on every nonnegative spacing. -/
def adjustDimRaw (step dim : Int) : Option Int :=
  (pyCeil (dim - 1) step).map fun k => k * step + 1

/-- `_sanitize_coord`: snap a raw coordinate to the nearest lattice point
`k·step + 1` and clamp both axes into `[1, dimension - 2]`. -/
def sanitizeCoord (step width height : Int) (pos : Int × Int) : Int × Int :=
  let kx := pyRound (pos.1 - 1) step
  let kz := pyRound (pos.2 - 1) step
  let vx := kx * step + 1
  let vz := kz * step + 1
  (max 1 (min vx (width - 2)), max 1 (min vz (height - 2)))

/-- The state `PathGenerator.__init__` computes before any randomness is used:
`step`, grid dimensions, and the sanitized endpoints. -/
structure Gen where
  step : Int
  width : Int
  height : Int
  startPos : Int × Int
  endPos : Int × Int
deriving Repr

/-- `PathGenerator.__init__`: grid sizing followed by coordinate sanitization. -/
def Gen.init (p : Params) : Gen :=
  let step : Int := (p.spacing : Int) + 1
  let maxX := max p.startPos.1 p.endPos.1
  let maxZ := max p.startPos.2 p.endPos.2
  let requiredWidth := maxX + step + 2
  let requiredHeight := maxZ + step + 2
  let width := adjustDim step requiredWidth
  let height := adjustDim step requiredHeight
  { step := step, width := width, height := height,
    startPos := sanitizeCoord step width height p.startPos,
    endPos := sanitizeCoord step width height p.endPos }

/-- Stage 1 of `generate`:
`round(min_paths + (max_paths - min_paths) * (fill_percent / 100.0))` with
`min_paths = 1`, `max_paths = 15`, i.e. the exact rational
`(100 + 14·fill) / 100` rounded half to even.  The float computation in the
source takes the same value for every integer `fill` appearing in the claims:
the rational has denominator 50, so non-tie values are at least `1/50` away
from a half-integer while the float error is below `10^-13`, and at the tie
values (`fill ≡ 25 [MOD 50]`) the float arithmetic is exact. -/
def numPaths (fill : Int) : Int := pyRound (100 + 14 * fill) 100

/-! ### Arithmetic facts about rounding and sizing -/

theorem pyRound_nonneg {n d : Int} (hn : 0 ≤ n) (hd : 0 < d) : 0 ≤ pyRound n d := by
  have hq : 0 ≤ n / d := Int.ediv_nonneg hn (le_of_lt hd)
  unfold pyRound
  dsimp only
  split
  · exact hq
  · split
    · omega
    · split <;> omega

theorem pyRound_mul_le {n d : Int} (hd : 0 < d) : pyRound n d * d ≤ n + d - 1 := by
  have hmod : d * (n / d) + n % d = n := Int.ediv_add_emod n d
  have hr0 : 0 ≤ n % d := Int.emod_nonneg n (ne_of_gt hd)
  have hrd : n % d < d := Int.emod_lt_of_pos n hd
  have h1 : (n / d) * d = n - n % d := by rw [mul_comm]; omega
  have h2 : (n / d + 1) * d = n - n % d + d := by rw [add_mul, h1]; omega
  unfold pyRound
  dsimp only
  split
  · omega
  · split
    · omega
    · split
      · omega
      · omega

theorem pyRound_exact {k d : Int} (hd : 0 < d) : pyRound (k * d) d = k := by
  have hdvd : (k * d) % d = 0 := Int.mul_emod_left k d
  have hq : k * d / d = k := Int.mul_ediv_cancel k (ne_of_gt hd)
  unfold pyRound
  dsimp only
  rw [hdvd, hq]
  simp [hd]

theorem adjustDim_ge {step dim : Int} (hs : 0 < step) : dim ≤ adjustDim step dim := by
  unfold adjustDim
  set a := dim - 1 + (step - 1) with ha
  have hmod : step * (a / step) + a % step = a := Int.ediv_add_emod a step
  have hrd : a % step < step := Int.emod_lt_of_pos a hs
  have h1 : a / step * step = a - a % step := by rw [mul_comm]; omega
  omega

theorem adjustDim_form (step dim : Int) : ∃ k : Int, adjustDim step dim = k * step + 1 :=
  ⟨(dim - 1 + (step - 1)) / step, rfl⟩

theorem adjustDim_min {step dim : Int} (hs : 0 < step) {k : Int}
    (hk : dim ≤ k * step + 1) : adjustDim step dim ≤ k * step + 1 := by
  unfold adjustDim
  set a := dim - 1 + (step - 1) with ha
  have hlt : a < (k + 1) * step := by
    have : (k + 1) * step = k * step + step := by ring
    omega
  have hdiv : a / step < k + 1 := by
    have h := Int.ediv_lt_iff_lt_mul (a := a) (b := k + 1) hs
    rw [h]
    exact hlt
  have hle : a / step ≤ k := by omega
  have := mul_le_mul_of_nonneg_right hle (le_of_lt hs)
  omega

/-- Core sanitization fact for one axis: when the raw coordinate is at least 1
and the dimension leaves room (`c + step + 2 ≤ dim`, which the sizing step
guarantees), neither clamp moves the snapped value, the result is a lattice
point, and it lies in `[1, dim - 2]`. -/
theorem sanitize_axis {step c dim : Int} (hs : 0 < step) (hc : 1 ≤ c)
    (hdim : c + step + 2 ≤ dim) :
    max 1 (min (pyRound (c - 1) step * step + 1) (dim - 2))
      = pyRound (c - 1) step * step + 1 ∧
    1 ≤ pyRound (c - 1) step * step + 1 ∧
    pyRound (c - 1) step * step + 1 ≤ dim - 2 ∧
    (pyRound (c - 1) step * step + 1 - 1) % step = 0 := by
  have hk0 : 0 ≤ pyRound (c - 1) step := pyRound_nonneg (by omega) hs
  have hup : pyRound (c - 1) step * step ≤ (c - 1) + step - 1 := pyRound_mul_le hs
  have hlow : 0 ≤ pyRound (c - 1) step * step :=
    mul_nonneg hk0 (le_of_lt hs)
  refine ⟨?_, by omega, by omega, ?_⟩
  · have h1 : min (pyRound (c - 1) step * step + 1) (dim - 2)
        = pyRound (c - 1) step * step + 1 := min_eq_left (by omega)
    rw [h1]
    exact max_eq_right (by omega)
  · simp [Int.add_mul_emod_self_left, Int.mul_emod_left]

/-! ### Grid state, random walk, carving, branch growth -/

/-- Grid state: the cell contents as a total function plus a flag that latches
`false` if any unguarded access of the generator (corridor writes, the branch
carve's `WALL` test, marker stamping) touches an index outside
`[0, width) × [0, height)`. -/
structure St where
  cell : Int → Int → Cell
  ok : Bool

/-- `[[WALL_CHAR] * width] * height`. -/
def St.initial : St := { cell := fun _ _ => Cell.wall, ok := true }

/-- `self.grid[z][x] = c` with `x` the horizontal and `z` the vertical index. -/
def St.write (g : Gen) (s : St) (x z : Int) (c : Cell) : St :=
  if 0 ≤ x ∧ x < g.width ∧ 0 ≤ z ∧ z < g.height then
    { s with cell := fun a b => if a = x ∧ b = z then c else s.cell a b }
  else { s with ok := false }

/-- Reading `self.grid[z][x]` where the source performs no bounds check. -/
def St.read (g : Gen) (s : St) (x z : Int) : Cell × St :=
  if 0 ≤ x ∧ x < g.width ∧ 0 ≤ z ∧ z < g.height then (s.cell x z, s)
  else (s.cell x z, { s with ok := false })

/-- `random.shuffle`, modelled as a stream-driven permutation: pick the
element at index `draw mod length`, recurse on the rest.  The Python function
is interpreter stdlib, not repository code; the claims depend only on the
result being a stream-determined permutation of the input. -/
def pyShuffle {α : Type} : Nat → Rng → List α → List α × Rng
  | 0, r, _ => ([], r)
  | _ + 1, r, [] => ([], r)
  | fuel + 1, r, x :: xs =>
    let l := x :: xs
    let i : Fin l.length := ⟨r.head % l.length, Nat.mod_lt _ (Nat.succ_pos xs.length)⟩
    let p := pyShuffle fuel r.tail (l.eraseIdx i.1)
    (l.get i :: p.1, p.2)

/-- Shuffle with exactly enough fuel for the whole list. -/
def shuffleL {α : Type} (r : Rng) (l : List α) : List α × Rng :=
  pyShuffle l.length r l

/-- The four cardinal lattice moves in the order the walk appends them. -/
def baseMoves (g : Gen) : List (Int × Int) :=
  [(g.step, 0), (-g.step, 0), (0, g.step), (0, -g.step)]

/-- The weighted candidate-move list of `_generate_random_solution_path`:
four copies of each direction that closes remaining offset, then one copy of
each cardinal move. -/
def buildMoves (g : Gen) (cur : Int × Int) : List (Int × Int) :=
  let dxT := g.endPos.1 - cur.1
  let dzT := g.endPos.2 - cur.2
  ((if 0 < dxT then List.replicate 4 ((g.step, 0) : Int × Int)
    else if dxT < 0 then List.replicate 4 ((-g.step, 0) : Int × Int) else []) ++
   (if 0 < dzT then List.replicate 4 (((0 : Int), g.step))
    else if dzT < 0 then List.replicate 4 (((0 : Int), -g.step)) else [])) ++
  baseMoves g

/-- `0 < x < width - 1 and 0 < z < height - 1`: the strict-interior test
applied to every candidate position. -/
def interior (g : Gen) (x z : Int) : Prop :=
  0 < x ∧ x < g.width - 1 ∧ 0 < z ∧ z < g.height - 1

instance (g : Gen) (x z : Int) : Decidable (interior g x z) := by
  unfold interior; infer_instance

/-- Scan the shuffled moves, take the first whose destination is interior. -/
def firstMove (g : Gen) (cur : Int × Int) : List (Int × Int) → Option (Int × Int)
  | [] => none
  | m :: ms =>
    let nxt := (cur.1 + m.1, cur.2 + m.2)
    if interior g nxt.1 nxt.2 then some nxt else firstMove g cur ms

/-- One recorded walk transition `(x, z, prev_x, prev_z)`. -/
structure Seg where
  x : Int
  z : Int
  px : Int
  pz : Int
deriving DecidableEq, Repr

/-- The loop body of `_generate_random_solution_path`, fuel = remaining
iterations of `for _ in range(self.width * self.height)`. -/
def walkAux (g : Gen) : Nat → (Int × Int) → Rng → List Seg × Rng
  | 0, _, r => ([], r)
  | fuel + 1, cur, r =>
    if cur = g.endPos then ([], r)
    else
      let sm := shuffleL r (buildMoves g cur)
      match firstMove g cur sm.1 with
      | some nxt =>
        let rest := walkAux g fuel nxt sm.2
        (⟨nxt.1, nxt.2, cur.1, cur.2⟩ :: rest.1, rest.2)
      | none => ([], sm.2)

/-- `_generate_random_solution_path` with the source's iteration cap. -/
def walkPath (g : Gen) (r : Rng) : List Seg × Rng :=
  walkAux g (g.width * g.height).toNat g.startPos r

/-- The cells `(px + (dx // step) * i, pz + (dz // step) * i)` for
`i in range(step + 1)`: the straight corridor between segment endpoints.
Python `//` is floor division; every reachable call has `step > 0` and
`dx, dz ∈ {0, ±step}`, where Euclidean and floor division agree. -/
def corridorCells (step px pz x z : Int) : List (Int × Int) :=
  (List.range (step.toNat + 1)).map fun (i : Nat) =>
    (px + (x - px) / step * (i : Int), pz + (z - pz) / step * (i : Int))

/-- Stage-2 corridor carving: unconditional `PATH` writes. -/
def carveSeg (g : Gen) (s : St) (sg : Seg) : St :=
  (corridorCells g.step sg.px sg.pz sg.x sg.z).foldl
    (fun t c => t.write g c.1 c.2 Cell.path) s

/-- `all_carved_cells.update(path)`: accumulate segments, dropping duplicates.
Python's set iteration order is unspecified; the model keeps first-insertion
order, which is immaterial because the list is shuffled before use. -/
def addCarved (acc : List Seg) (path : List Seg) : List Seg :=
  path.foldl (fun a sg => if sg ∈ a then a else a ++ [sg]) acc

/-- Stage 2 of `generate`: run walks, accumulate segments, carve corridors. -/
def stage2 (g : Gen) : Nat → St → Rng → List Seg → St × Rng × List Seg
  | 0, s, r, acc => (s, r, acc)
  | n + 1, s, r, acc =>
    let w := walkPath g r
    let acc1 := addCarved acc w.1
    let s1 := w.1.foldl (carveSeg g) s
    stage2 g n s1 w.2 acc1

/-- One iteration of the carve loop of `_add_dead_end_branches`: read the
cell (unguarded in the source), flip it to `PATH` only if it is `WALL`, and
count the flip. -/
def ccStep (g : Gen) (t : St × Int) (c : Int × Int) : St × Int :=
  let rd := t.1.read g c.1 c.2
  if rd.1 = Cell.wall then (rd.2.write g c.1 c.2 Cell.path, t.2 + 1)
  else (rd.2, t.2)

/-- The carve loop of `_add_dead_end_branches`: flip only `WALL` cells to
`PATH`, counting flips (each flip decrements `cells_to_add` by one). -/
def carveCount (g : Gen) (s : St) (x z nx nz : Int) : St × Int :=
  (corridorCells g.step x z nx nz).foldl (ccStep g) (s, 0)

/-- The in-bounds `WALL` lattice neighbors of a frontier cell, in source
order.  The grid read here is guarded by the bounds test (Python's `and`
short-circuits), so it reads the raw cell function. -/
def neighborList (g : Gen) (s : St) (x z : Int) : List (Int × Int) :=
  [((0 : Int), g.step), (0, -g.step), (g.step, 0), (-g.step, 0)].filterMap
    fun d =>
      if interior g (x + d.1) (z + d.2) ∧ s.cell (x + d.1) (z + d.2) = Cell.wall
      then some (x + d.1, z + d.2) else none

/-- The `while cells_to_add > 0 and frontier:` loop.  `frontier.pop()` takes
from the end of the Python list and `frontier.append` pushes there, so the
model keeps the frontier top-first: the head is the next cell popped and a
grown cell is consed on.  The fuel only makes the recursion structural;
`branchLoop_stable` shows the fuel `branchPhase` supplies always reaches the
loop's own exit condition. -/
def branchLoop (g : Gen) : Nat → St → Rng → Int → List (Int × Int) → St × Rng × Int
  | 0, s, r, b, _ => (s, r, b)
  | fuel + 1, s, r, b, stack =>
    match stack with
    | [] => (s, r, b)
    | (x, z) :: rest =>
      if b ≤ 0 then (s, r, b)
      else
        match neighborList g s x z with
        | [] => branchLoop g fuel s r b rest
        | a :: tl =>
          let nb := (a :: tl).get ⟨r.head % (a :: tl).length, Nat.mod_lt _ (Nat.succ_pos tl.length)⟩
          let cc := carveCount g s x z nb.1 nb.2
          branchLoop g fuel cc.1 r.tail (b - cc.2) (nb :: rest)

/-- `_add_dead_end_branches`: budget `int(len(initial_cells) * 0.2)` (for
every reachable length the float computation equals `len // 5`), one shuffle
of the frontier, then the growth loop. -/
def branchPhase (g : Gen) (s : St) (r : Rng) (carved : List Seg) : St × Rng × Int :=
  let budget : Int := ((carved.length / 5 : Nat) : Int)
  let sh := shuffleL r (carved.map fun sg => (sg.x, sg.z))
  let stack := sh.1.reverse
  branchLoop g (budget.toNat + stack.length) s sh.2 budget stack

/-- Everything a run of `generate` produces, together with the diagnostic
quantities the claims are about: the accumulated segment set and the final
value of the `cells_to_add` counter of the branching stage (the counter
decrements exactly once per `WALL → PATH` write, so `budget − finalBudget`
is the number of cells branch growth changed; when branching is off it is
left at the budget, i.e. zero cells changed). -/
structure Out where
  gen : Gen
  st : St
  carved : List Seg
  finalBudget : Int
  paths : Nat

/-- `PathGenerator.generate` body after seeding, with `r0` the state of the
process-wide random source when the walks begin. -/
def generateFrom (p : Params) (r0 : Rng) : Out :=
  let g := Gen.init p
  let n := (numPaths p.fillPercent).toNat
  let s2 := stage2 g n St.initial r0 []
  let s3 := if p.branching then branchPhase g s2.1 s2.2.1 s2.2.2
            else (s2.1, s2.2.1, ((s2.2.2.length / 5 : Nat) : Int))
  let withStart := s3.1.write g g.startPos.1 g.startPos.2 Cell.startM
  let withEnd := withStart.write g g.endPos.1 g.endPos.2 Cell.endM
  { gen := g, st := withEnd, carved := s2.2.2, finalBudget := s3.2.2, paths := n }

/-- `generate`, including the seeding step
`if self.seed is not None and self.seed != -1: random.seed(self.seed)`:
a provided non-sentinel seed replaces the random state by a stream that is a
function of the seed alone. -/
def generate (p : Params) (r : Rng) : Out :=
  match p.seed with
  | some k => if k = -1 then generateFrom p r else generateFrom p (seedRng k)
  | none => generateFrom p r

/-! ### Concrete instances used by witnesses and counterexamples -/

/-- The all-zero random stream. -/
def zeroStream : Rng := fun _ => 0

/-- A second stream, for the determinism witness. -/
def otherStream : Rng := fun n => n + 7

/-- The stream driving the `fill_percent = 108` counterexample: the first
draw of the sixteenth walk (draw 240) selects the `(step, 0)` move, every
other draw selects the first candidate. -/
def ctrStream : Rng := fun n => if n = 240 then 4 else 0

/-- Counterexample input for the branch-budget claim: a straight five-segment
solution path with `spacing = 1`, branching on. -/
def pBudget : Params := ⟨(1, 1), (1, 11), 1, true, 1, none⟩

/-- An invalid configuration: `fill_percent = 108` is above 100. -/
def pFill108 : Params := ⟨(1, 1), (1, 3), 0, false, 108, none⟩

/-- The same configuration with `fill_percent` clamped to 100. -/
def pFill100 : Params := ⟨(1, 1), (1, 3), 0, false, 100, none⟩

/-- A small valid configuration used by several witnesses. -/
def pSmall : Params := ⟨(1, 1), (1, 3), 0, false, 1, some 42⟩

/-- A small valid configuration with branching on. -/
def pSmallBranch : Params := ⟨(1, 1), (1, 11), 1, true, 1, some 5⟩

/-- A small valid configuration whose endpoints sanitize to the same cell. -/
def pDegenerate : Params := ⟨(1, 2), (2, 1), 2, true, 60, some 3⟩

/-! ### Invariant predicates used by the proofs -/

/-- A well-formed walk segment: both endpoints strictly interior and the
transition is one cardinal lattice move. -/
def segGood (g : Gen) (sg : Seg) : Prop :=
  interior g sg.px sg.pz ∧ interior g sg.x sg.z ∧
    (sg.x - sg.px, sg.z - sg.pz) ∈ baseMoves g

/-- The safety invariant of the grid state: no out-of-bounds access has
happened and every non-interior cell still holds `WALL`. -/
def Inv (g : Gen) (s : St) : Prop :=
  s.ok = true ∧ ∀ x z : Int, ¬ interior g x z → s.cell x z = Cell.wall

/-- Before the markers are stamped, every cell is `WALL` or `PATH`. -/
def NoMarks (s : St) : Prop :=
  ∀ x z : Int, s.cell x z = Cell.wall ∨ s.cell x z = Cell.path

/-- Branch-growth frontier invariant: every frontier cell is interior and
already carved. -/
def frontGood (g : Gen) (s : St) (stack : List (Int × Int)) : Prop :=
  ∀ q ∈ stack, interior g q.1 q.2 ∧ s.cell q.1 q.2 = Cell.path

/-! ### Helper lemmas about `generate` and the walk -/

theorem generate_eq_generateFrom (p : Params) (r : Rng) :
    ∃ r2 : Rng, generate p r = generateFrom p r2 := by
  unfold generate
  cases p.seed with
  | none => exact ⟨r, rfl⟩
  | some k =>
    by_cases h : k = -1
    · simp only [h, if_pos rfl]
      exact ⟨r, rfl⟩
    · simp only [if_neg h]
      exact ⟨seedRng k, rfl⟩

theorem generateFrom_gen (p : Params) (r : Rng) : (generateFrom p r).gen = Gen.init p := rfl

theorem generateFrom_paths (p : Params) (r : Rng) :
    (generateFrom p r).paths = (numPaths p.fillPercent).toNat := rfl

theorem generate_gen (p : Params) (r : Rng) : (generate p r).gen = Gen.init p := by
  obtain ⟨r2, h⟩ := generate_eq_generateFrom p r
  rw [h, generateFrom_gen]

theorem generate_paths (p : Params) (r : Rng) :
    (generate p r).paths = (numPaths p.fillPercent).toNat := by
  obtain ⟨r2, h⟩ := generate_eq_generateFrom p r
  rw [h, generateFrom_paths]

theorem init_step (p : Params) : (Gen.init p).step = (p.spacing : Int) + 1 := rfl

theorem init_step_pos (p : Params) : 0 < (Gen.init p).step := by
  rw [init_step]
  have := Int.natCast_nonneg p.spacing
  omega

theorem init_width (p : Params) :
    (Gen.init p).width
      = adjustDim (Gen.init p).step (max p.startPos.1 p.endPos.1 + (Gen.init p).step + 2) := rfl

theorem init_height (p : Params) :
    (Gen.init p).height
      = adjustDim (Gen.init p).step (max p.startPos.2 p.endPos.2 + (Gen.init p).step + 2) := rfl

theorem init_startPos (p : Params) :
    (Gen.init p).startPos
      = sanitizeCoord (Gen.init p).step (Gen.init p).width (Gen.init p).height p.startPos := rfl

theorem init_endPos (p : Params) :
    (Gen.init p).endPos
      = sanitizeCoord (Gen.init p).step (Gen.init p).width (Gen.init p).height p.endPos := rfl

/-- Both axes of one sanitized coordinate: the clamp is a no-op, the result
is a lattice point strictly inside the border. -/
theorem sanitize_pair {step w hgt : Int} (pos : Int × Int) (hs : 0 < step)
    (hx : 1 ≤ pos.1) (hz : 1 ≤ pos.2)
    (hw : pos.1 + step + 2 ≤ w) (hh : pos.2 + step + 2 ≤ hgt) :
    sanitizeCoord step w hgt pos
      = (pyRound (pos.1 - 1) step * step + 1, pyRound (pos.2 - 1) step * step + 1) ∧
    1 ≤ (sanitizeCoord step w hgt pos).1 ∧ (sanitizeCoord step w hgt pos).1 ≤ w - 2 ∧
    1 ≤ (sanitizeCoord step w hgt pos).2 ∧ (sanitizeCoord step w hgt pos).2 ≤ hgt - 2 ∧
    ((sanitizeCoord step w hgt pos).1 - 1) % step = 0 ∧
    ((sanitizeCoord step w hgt pos).2 - 1) % step = 0 := by
  obtain ⟨ex, bx1, bx2, lx⟩ := sanitize_axis hs hx hw
  obtain ⟨ez, bz1, bz2, lz⟩ := sanitize_axis hs hz hh
  have hpair : sanitizeCoord step w hgt pos
      = (pyRound (pos.1 - 1) step * step + 1, pyRound (pos.2 - 1) step * step + 1) := by
    unfold sanitizeCoord
    dsimp only
    rw [ex, ez]
  refine ⟨hpair, ?_, ?_, ?_, ?_, ?_, ?_⟩ <;> rw [hpair] <;> assumption

/-- The sanitized `start` of a valid input: lattice point, clamp no-op,
strictly interior. -/
theorem init_start_spec (p : Params) (h1 : 1 ≤ p.startPos.1) (h2 : 1 ≤ p.startPos.2) :
    (Gen.init p).startPos
      = (pyRound (p.startPos.1 - 1) (Gen.init p).step * (Gen.init p).step + 1,
         pyRound (p.startPos.2 - 1) (Gen.init p).step * (Gen.init p).step + 1) ∧
    1 ≤ (Gen.init p).startPos.1 ∧ (Gen.init p).startPos.1 ≤ (Gen.init p).width - 2 ∧
    1 ≤ (Gen.init p).startPos.2 ∧ (Gen.init p).startPos.2 ≤ (Gen.init p).height - 2 ∧
    ((Gen.init p).startPos.1 - 1) % (Gen.init p).step = 0 ∧
    ((Gen.init p).startPos.2 - 1) % (Gen.init p).step = 0 := by
  have hs := init_step_pos p
  have hw : p.startPos.1 + (Gen.init p).step + 2 ≤ (Gen.init p).width := by
    rw [init_width]
    calc p.startPos.1 + (Gen.init p).step + 2
        ≤ max p.startPos.1 p.endPos.1 + (Gen.init p).step + 2 := by
          have := le_max_left p.startPos.1 p.endPos.1; omega
      _ ≤ _ := adjustDim_ge hs
  have hh : p.startPos.2 + (Gen.init p).step + 2 ≤ (Gen.init p).height := by
    rw [init_height]
    calc p.startPos.2 + (Gen.init p).step + 2
        ≤ max p.startPos.2 p.endPos.2 + (Gen.init p).step + 2 := by
          have := le_max_left p.startPos.2 p.endPos.2; omega
      _ ≤ _ := adjustDim_ge hs
  rw [init_startPos]
  exact sanitize_pair p.startPos hs h1 h2 hw hh

/-- The sanitized `end` of a valid input. -/
theorem init_end_spec (p : Params) (h1 : 1 ≤ p.endPos.1) (h2 : 1 ≤ p.endPos.2) :
    (Gen.init p).endPos
      = (pyRound (p.endPos.1 - 1) (Gen.init p).step * (Gen.init p).step + 1,
         pyRound (p.endPos.2 - 1) (Gen.init p).step * (Gen.init p).step + 1) ∧
    1 ≤ (Gen.init p).endPos.1 ∧ (Gen.init p).endPos.1 ≤ (Gen.init p).width - 2 ∧
    1 ≤ (Gen.init p).endPos.2 ∧ (Gen.init p).endPos.2 ≤ (Gen.init p).height - 2 ∧
    ((Gen.init p).endPos.1 - 1) % (Gen.init p).step = 0 ∧
    ((Gen.init p).endPos.2 - 1) % (Gen.init p).step = 0 := by
  have hs := init_step_pos p
  have hw : p.endPos.1 + (Gen.init p).step + 2 ≤ (Gen.init p).width := by
    rw [init_width]
    calc p.endPos.1 + (Gen.init p).step + 2
        ≤ max p.startPos.1 p.endPos.1 + (Gen.init p).step + 2 := by
          have := le_max_right p.startPos.1 p.endPos.1; omega
      _ ≤ _ := adjustDim_ge hs
  have hh : p.endPos.2 + (Gen.init p).step + 2 ≤ (Gen.init p).height := by
    rw [init_height]
    calc p.endPos.2 + (Gen.init p).step + 2
        ≤ max p.startPos.2 p.endPos.2 + (Gen.init p).step + 2 := by
          have := le_max_right p.startPos.2 p.endPos.2; omega
      _ ≤ _ := adjustDim_ge hs
  rw [init_endPos]
  exact sanitize_pair p.endPos hs h1 h2 hw hh

/-! ### Claim theorems: sizing, sanitization, path count, determinism -/

/-- C2: for every valid input the sanitized start and end coordinates lie on
the lattice (`(coord - 1) mod step = 0`), lie inside `[1, dimension - 2]` on
both axes, and the clamp in `_sanitize_coord` never moves the snapped value
(the sanitized coordinate is exactly `round((c-1)/step)·step + 1`). -/
theorem claim_C2 (p : Params) (hp : p.valid) (g : Gen) (hg : g = Gen.init p) :
    ((g.startPos.1 - 1) % g.step = 0 ∧ (g.startPos.2 - 1) % g.step = 0 ∧
      (g.endPos.1 - 1) % g.step = 0 ∧ (g.endPos.2 - 1) % g.step = 0) ∧
    (1 ≤ g.startPos.1 ∧ g.startPos.1 ≤ g.width - 2 ∧
      1 ≤ g.startPos.2 ∧ g.startPos.2 ≤ g.height - 2 ∧
      1 ≤ g.endPos.1 ∧ g.endPos.1 ≤ g.width - 2 ∧
      1 ≤ g.endPos.2 ∧ g.endPos.2 ≤ g.height - 2) ∧
    g.startPos = (pyRound (p.startPos.1 - 1) g.step * g.step + 1,
                  pyRound (p.startPos.2 - 1) g.step * g.step + 1) ∧
    g.endPos = (pyRound (p.endPos.1 - 1) g.step * g.step + 1,
                pyRound (p.endPos.2 - 1) g.step * g.step + 1) := by
  subst hg
  obtain ⟨h1, h2, h3, h4, _, _⟩ := hp
  obtain ⟨es, s1, s2, s3, s4, l1, l2⟩ := init_start_spec p h1 h2
  obtain ⟨ee, e1, e2, e3, e4, m1, m2⟩ := init_end_spec p h3 h4
  exact ⟨⟨l1, l2, m1, m2⟩, ⟨s1, s2, s3, s4, e1, e2, e3, e4⟩, es, ee⟩

theorem claim_C2_witness :
    1 ≤ (Gen.init pSmall).startPos.1 ∧ (Gen.init pSmall).startPos.1 ≤ (Gen.init pSmall).width - 2 ∧
      1 ≤ (Gen.init pSmall).startPos.2 ∧ (Gen.init pSmall).startPos.2 ≤ (Gen.init pSmall).height - 2 ∧
      1 ≤ (Gen.init pSmall).endPos.1 ∧ (Gen.init pSmall).endPos.1 ≤ (Gen.init pSmall).width - 2 ∧
      1 ≤ (Gen.init pSmall).endPos.2 ∧ (Gen.init pSmall).endPos.2 ≤ (Gen.init pSmall).height - 2 :=
  (claim_C2 pSmall (by decide) (Gen.init pSmall) rfl).2.1

/-- C7: each grid dimension is the smallest value of the form `k·step + 1`
that is at least `max(start_axis, end_axis) + step + 2`. -/
theorem claim_C7 (p : Params) (hp : p.valid) (g : Gen) (hg : g = Gen.init p) :
    ((∃ k : Int, g.width = k * g.step + 1) ∧
      max p.startPos.1 p.endPos.1 + g.step + 2 ≤ g.width ∧
      ∀ k : Int, max p.startPos.1 p.endPos.1 + g.step + 2 ≤ k * g.step + 1 →
        g.width ≤ k * g.step + 1) ∧
    ((∃ k : Int, g.height = k * g.step + 1) ∧
      max p.startPos.2 p.endPos.2 + g.step + 2 ≤ g.height ∧
      ∀ k : Int, max p.startPos.2 p.endPos.2 + g.step + 2 ≤ k * g.step + 1 →
        g.height ≤ k * g.step + 1) := by
  subst hg
  have hs := init_step_pos p
  constructor
  · refine ⟨?_, ?_, ?_⟩
    · rw [init_width]; exact adjustDim_form _ _
    · rw [init_width]; exact adjustDim_ge hs
    · intro k hk
      rw [init_width]
      exact adjustDim_min hs hk
  · refine ⟨?_, ?_, ?_⟩
    · rw [init_height]; exact adjustDim_form _ _
    · rw [init_height]; exact adjustDim_ge hs
    · intro k hk
      rw [init_height]
      exact adjustDim_min hs hk

theorem claim_C7_witness :
    max pSmall.startPos.1 pSmall.endPos.1 + (Gen.init pSmall).step + 2 ≤ (Gen.init pSmall).width :=
  (claim_C7 pSmall (by decide) (Gen.init pSmall) rfl).1.2.1

set_option maxRecDepth 40000

/-- C5: the walk count of `generate` is `(numPaths fill).toNat` and
`numPaths` is exactly the rounded linear interpolation of the source, with
`numPaths 1 = 1`, `numPaths 50 = 8`, `numPaths 100 = 15`, nondecreasing on
1–100. -/
theorem claim_C5 :
    (∀ f : Int, numPaths f = pyRound (100 + 14 * f) 100) ∧
    numPaths 1 = 1 ∧ numPaths 50 = 8 ∧ numPaths 100 = 15 ∧
    (∀ p : Params, ∀ r : Rng, (generate p r).paths = (numPaths p.fillPercent).toNat) ∧
    (∀ f1 f2 : Nat, 1 ≤ f1 → f1 ≤ f2 → f2 ≤ 100 →
      numPaths (f1 : Int) ≤ numPaths (f2 : Int)) := by
  have hdec : ∀ a : Fin 101, ∀ b : Fin 101, a.1 ≤ b.1 →
      numPaths (a.1 : Int) ≤ numPaths (b.1 : Int) := by decide
  refine ⟨fun f => rfl, by decide, by decide, by decide, generate_paths, ?_⟩
  intro f1 f2 _ h12 h2
  exact hdec ⟨f1, by omega⟩ ⟨f2, by omega⟩ h12

theorem claim_C5_witness :
    numPaths ((20 : Nat) : Int) ≤ numPaths ((60 : Nat) : Int) :=
  claim_C5.2.2.2.2.2 20 60 (by decide) (by decide) (by decide)

/-- C4: when a seed is provided and is not the sentinel `-1`, the output of
`generate` does not depend on the incoming state of the process-wide random
source, so two calls with identical parameters return identical results. -/
theorem claim_C4 (p : Params) (k : Int) (hk : p.seed = some k) (hs : k ≠ -1)
    (r1 r2 : Rng) : generate p r1 = generate p r2 := by
  unfold generate
  rw [hk]
  simp only [if_neg hs]

theorem claim_C4_witness : generate pSmall zeroStream = generate pSmall otherStream :=
  claim_C4 pSmall 42 rfl (by decide) zeroStream otherStream

/-- C8 counterexample: on the valid input `pBudget` (spacing 1, branching on)
with the all-zero stream, the single walk carves 5 distinct segments, so the
budget is `int(5 * 0.2) = 1`, yet branch growth flips 2 cells from `WALL` to
`PATH` (the `cells_to_add` counter, decremented once per flip, ends at `-1`):
the claimed bound `floor(0.2 · |initial cells|)` is exceeded, and the loop
stops with a negative budget, not at zero. -/
theorem claim_C8_counterexample :
    pBudget.valid ∧ pBudget.branching = true ∧
    (generate pBudget zeroStream).carved.length = 5 ∧
    (((generate pBudget zeroStream).carved.length / 5 : Nat) : Int) = 1 ∧
    (generate pBudget zeroStream).finalBudget = -1 ∧
    (((generate pBudget zeroStream).carved.length / 5 : Nat) : Int)
        - (generate pBudget zeroStream).finalBudget = 2 := by decide

/-- C9 counterexample: the invalid configuration `fill_percent = 108` is
neither rejected (the run completes with `ok = true`) nor treated as its
clamped value: it performs 16 walks where the clamped value 100 performs 15,
and on the stream `ctrStream` the sixteenth walk carves cell `(2, 1)`, which
the clamped run leaves as `WALL`. -/
theorem claim_C9_counterexample :
    numPaths pFill108.fillPercent = 16 ∧ numPaths pFill100.fillPercent = 15 ∧
    (generate pFill108 ctrStream).st.ok = true ∧
    (generate pFill108 ctrStream).st.cell 2 1 = Cell.path ∧
    (generate pFill100 ctrStream).st.cell 2 1 = Cell.wall := by decide

theorem adjustDimRaw_pos {step : Int} (hs : 0 < step) (dim : Int) :
    adjustDimRaw step dim = some (adjustDim step dim) := by
  unfold adjustDimRaw pyCeil
  rw [if_neg (ne_of_gt hs), if_pos hs]
  show some ((dim - 1 + step - 1) / step * step + 1) = some (adjustDim step dim)
  have h : dim - 1 + step - 1 = dim - 1 + (step - 1) := by ring
  rw [h]
  rfl

/-- C9 amended: the generator applies no consistent policy and no validation,
with each violation kind treated differently.  Out-of-range `fill_percent` is
fed raw into the walk-count formula, so it is neither rejected nor treated as
its clamped value; coordinates below 1 are silently clamped to 1 or above by
sanitization; and negative spacing is not validated either: `spacing = -1`
gives `step = 0` and the sizing division of `__init__` fails with a
division-by-zero error during computation rather than rejecting with a
validation error, while every nonnegative spacing sizes normally. -/
theorem claim_C9 :
    (∀ p : Params, ∀ r : Rng, (generate p r).paths = (numPaths p.fillPercent).toNat) ∧
    (∀ step w hgt : Int, ∀ pos : Int × Int,
      1 ≤ (sanitizeCoord step w hgt pos).1 ∧ 1 ≤ (sanitizeCoord step w hgt pos).2) ∧
    (∀ spacing dim : Int, spacing = -1 → adjustDimRaw (spacing + 1) dim = none) ∧
    (∀ spacing dim : Int, 0 ≤ spacing →
      adjustDimRaw (spacing + 1) dim = some (adjustDim (spacing + 1) dim)) := by
  refine ⟨generate_paths, ?_, ?_, ?_⟩
  · intro step w hgt pos
    unfold sanitizeCoord
    exact ⟨le_max_left 1 _, le_max_left 1 _⟩
  · intro spacing dim hsp
    subst hsp
    show adjustDimRaw 0 dim = none
    unfold adjustDimRaw pyCeil
    rw [if_pos rfl]
    rfl
  · intro spacing dim hsp
    exact adjustDimRaw_pos (by omega) dim

theorem claim_C9_witness : adjustDimRaw ((-1 : Int) + 1) 5 = none :=
  claim_C9.2.2.1 (-1) 5 rfl

/-! ### Pointwise lemmas about grid reads and writes -/

theorem interior_inBounds {g : Gen} {x z : Int} (h : interior g x z) :
    0 ≤ x ∧ x < g.width ∧ 0 ≤ z ∧ z < g.height := by
  unfold interior at h; omega

theorem St.write_cell_ne {g : Gen} {s : St} {x z a b : Int} {c : Cell}
    (h : a ≠ x ∨ b ≠ z) : (St.write g s x z c).cell a b = s.cell a b := by
  unfold St.write
  split
  · dsimp only
    rw [if_neg (by tauto)]
  · rfl

theorem St.write_cell_self {g : Gen} {s : St} {x z : Int} {c : Cell}
    (h : 0 ≤ x ∧ x < g.width ∧ 0 ≤ z ∧ z < g.height) :
    (St.write g s x z c).cell x z = c := by
  unfold St.write
  rw [if_pos h]
  dsimp only
  rw [if_pos ⟨rfl, rfl⟩]

theorem St.write_ok {g : Gen} {s : St} {x z : Int} {c : Cell}
    (h : 0 ≤ x ∧ x < g.width ∧ 0 ≤ z ∧ z < g.height) :
    (St.write g s x z c).ok = s.ok := by
  unfold St.write
  rw [if_pos h]

theorem St.read_fst {g : Gen} {s : St} {x z : Int} :
    (St.read g s x z).1 = s.cell x z := by
  unfold St.read; split <;> rfl

theorem St.read_snd_cell {g : Gen} {s : St} {x z : Int} :
    (St.read g s x z).2.cell = s.cell := by
  unfold St.read; split <;> rfl

theorem St.read_snd_ok {g : Gen} {s : St} {x z : Int}
    (h : 0 ≤ x ∧ x < g.width ∧ 0 ≤ z ∧ z < g.height) :
    (St.read g s x z).2.ok = s.ok := by
  unfold St.read
  rw [if_pos h]

theorem write_inv {g : Gen} {s : St} {x z : Int} {c : Cell}
    (hInt : interior g x z) (hInv : Inv g s) : Inv g (St.write g s x z c) := by
  obtain ⟨hok, hbd⟩ := hInv
  refine ⟨by rw [St.write_ok (interior_inBounds hInt)]; exact hok, ?_⟩
  intro a b hni
  rw [St.write_cell_ne ?_]
  · exact hbd a b hni
  · by_contra hne
    push_neg at hne
    obtain ⟨ha, hb⟩ := hne
    subst ha; subst hb
    exact hni hInt

theorem write_noMarks {g : Gen} {s : St} {x z : Int} {c : Cell}
    (hc : c = Cell.wall ∨ c = Cell.path) (h : NoMarks s) : NoMarks (St.write g s x z c) := by
  intro a b
  by_cases hab : a = x ∨ b = z
  all_goals {
    unfold St.write
    split
    · dsimp only
      split
      · exact hc
      · exact h a b
    · exact h a b
  }

theorem write_pathMono {g : Gen} {s : St} {x z a b : Int}
    (h : s.cell a b = Cell.path) : (St.write g s x z Cell.path).cell a b = Cell.path := by
  unfold St.write
  split
  · dsimp only
    split
    · rfl
    · exact h
  · exact h

/-! ### Corridor lemmas -/

theorem corridor_interior {g : Gen} (hs : 0 < g.step) {px pz x z : Int}
    (hd : (x - px, z - pz) ∈ baseMoves g)
    (hp : interior g px pz) (hq : interior g x z) :
    ∀ c ∈ corridorCells g.step px pz x z, interior g c.1 c.2 := by
  intro c hc
  unfold corridorCells at hc
  simp only [List.mem_map, List.mem_range] at hc
  obtain ⟨i, hi, rfl⟩ := hc
  have hcast : ((g.step.toNat : Int)) = g.step := Int.toNat_of_nonneg (le_of_lt hs)
  have hiI : (i : Int) < (g.step.toNat : Int) + 1 := by exact_mod_cast hi
  have hi2 : (i : Int) ≤ g.step := by omega
  have hi0 : 0 ≤ (i : Int) := Int.natCast_nonneg i
  unfold interior at hp hq ⊢
  simp only [baseMoves, List.mem_cons, List.not_mem_nil, or_false, Prod.mk.injEq] at hd
  obtain ⟨hdx, hdz⟩ | ⟨hdx, hdz⟩ | ⟨hdx, hdz⟩ | ⟨hdx, hdz⟩ := hd
  · have e1 : (x - px) / g.step = 1 := by rw [hdx]; exact Int.ediv_self (ne_of_gt hs)
    have e2 : (z - pz) / g.step = 0 := by rw [hdz]; exact Int.zero_ediv g.step
    rw [e1, e2]
    dsimp only
    omega
  · have e1 : (x - px) / g.step = -1 := by
      rw [hdx]
      have h2 : -g.step = -1 * g.step := by ring
      rw [h2]
      exact Int.mul_ediv_cancel (-1) (ne_of_gt hs)
    have e2 : (z - pz) / g.step = 0 := by rw [hdz]; exact Int.zero_ediv g.step
    rw [e1, e2]
    dsimp only
    omega
  · have e1 : (x - px) / g.step = 0 := by rw [hdx]; exact Int.zero_ediv g.step
    have e2 : (z - pz) / g.step = 1 := by rw [hdz]; exact Int.ediv_self (ne_of_gt hs)
    rw [e1, e2]
    dsimp only
    omega
  · have e1 : (x - px) / g.step = 0 := by rw [hdx]; exact Int.zero_ediv g.step
    have e2 : (z - pz) / g.step = -1 := by
      rw [hdz]
      have h2 : -g.step = -1 * g.step := by ring
      rw [h2]
      exact Int.mul_ediv_cancel (-1) (ne_of_gt hs)
    rw [e1, e2]
    dsimp only
    omega

theorem corridor_decomp {g : Gen} (hs : 0 < g.step) {px pz x z : Int}
    (hd : (x - px, z - pz) ∈ baseMoves g) :
    corridorCells g.step px pz x z
      = ((List.range g.step.toNat).map fun (i : Nat) =>
          (px + (x - px) / g.step * (i : Int), pz + (z - pz) / g.step * (i : Int)))
        ++ [(x, z)] := by
  unfold corridorCells
  rw [List.range_succ, List.map_append]
  congr 1
  simp only [List.map_cons, List.map_nil]
  have hcast : ((g.step.toNat : Int)) = g.step := Int.toNat_of_nonneg (le_of_lt hs)
  simp only [baseMoves, List.mem_cons, List.not_mem_nil, or_false, Prod.mk.injEq] at hd
  have hx : px + (x - px) / g.step * ((g.step.toNat : Int)) = x := by
    rw [hcast]
    obtain ⟨hdx, _⟩ | ⟨hdx, _⟩ | ⟨hdx, _⟩ | ⟨hdx, _⟩ := hd
    · rw [hdx, Int.ediv_self (ne_of_gt hs)]; omega
    · rw [hdx]
      have h2 : -g.step = -1 * g.step := by ring
      rw [h2, Int.mul_ediv_cancel (-1) (ne_of_gt hs)]
      omega
    · rw [hdx, Int.zero_ediv]; omega
    · rw [hdx, Int.zero_ediv]; omega
  have hz : pz + (z - pz) / g.step * ((g.step.toNat : Int)) = z := by
    rw [hcast]
    obtain ⟨_, hdz⟩ | ⟨_, hdz⟩ | ⟨_, hdz⟩ | ⟨_, hdz⟩ := hd
    · rw [hdz, Int.zero_ediv]; omega
    · rw [hdz, Int.zero_ediv]; omega
    · rw [hdz, Int.ediv_self (ne_of_gt hs)]; omega
    · rw [hdz]
      have h2 : -g.step = -1 * g.step := by ring
      rw [h2, Int.mul_ediv_cancel (-1) (ne_of_gt hs)]
      omega
  rw [hx, hz]

theorem corridor_front_ne {g : Gen} (hs : 0 < g.step) {px pz x z : Int}
    (hd : (x - px, z - pz) ∈ baseMoves g) :
    ∀ c ∈ (List.range g.step.toNat).map fun (i : Nat) =>
        (px + (x - px) / g.step * (i : Int), pz + (z - pz) / g.step * (i : Int)),
      c ≠ (x, z) := by
  intro c hc
  simp only [List.mem_map, List.mem_range] at hc
  obtain ⟨i, hi, rfl⟩ := hc
  have hcast : ((g.step.toNat : Int)) = g.step := Int.toNat_of_nonneg (le_of_lt hs)
  have hiI : (i : Int) < (g.step.toNat : Int) := by exact_mod_cast hi
  have hi2 : (i : Int) < g.step := by omega
  have hi0 : 0 ≤ (i : Int) := Int.natCast_nonneg i
  simp only [baseMoves, List.mem_cons, List.not_mem_nil, or_false, Prod.mk.injEq] at hd
  intro heq
  rw [Prod.mk.injEq] at heq
  obtain ⟨h1, h2⟩ := heq
  obtain ⟨hdx, hdz⟩ | ⟨hdx, hdz⟩ | ⟨hdx, hdz⟩ | ⟨hdx, hdz⟩ := hd
  · rw [hdx, Int.ediv_self (ne_of_gt hs)] at h1; omega
  · rw [hdx] at h1
    have h3 : -g.step = -1 * g.step := by ring
    rw [h3, Int.mul_ediv_cancel (-1) (ne_of_gt hs)] at h1
    omega
  · rw [hdz, Int.ediv_self (ne_of_gt hs)] at h2; omega
  · rw [hdz] at h2
    have h3 : -g.step = -1 * g.step := by ring
    rw [h3, Int.mul_ediv_cancel (-1) (ne_of_gt hs)] at h2
    omega

/-! ### Lemmas about the unconditional carve fold of stage 2 -/

theorem pathFold_inv {g : Gen} (cells : List (Int × Int)) (s : St)
    (hin : ∀ c ∈ cells, interior g c.1 c.2) (h : Inv g s) :
    Inv g (cells.foldl (fun t c => t.write g c.1 c.2 Cell.path) s) := by
  induction cells generalizing s with
  | nil => exact h
  | cons c cs ih =>
    rw [List.foldl_cons]
    exact ih _ (fun d hd => hin d (List.mem_cons_of_mem c hd))
      (write_inv (hin c (List.mem_cons_self c cs)) h)

theorem pathFold_noMarks {g : Gen} (cells : List (Int × Int)) (s : St)
    (h : NoMarks s) :
    NoMarks (cells.foldl (fun t c => t.write g c.1 c.2 Cell.path) s) := by
  induction cells generalizing s with
  | nil => exact h
  | cons c cs ih =>
    rw [List.foldl_cons]
    exact ih _ (write_noMarks (Or.inr rfl) h)

theorem pathFold_pathMono {g : Gen} (cells : List (Int × Int)) (s : St) {a b : Int}
    (h : s.cell a b = Cell.path) :
    (cells.foldl (fun t c => t.write g c.1 c.2 Cell.path) s).cell a b = Cell.path := by
  induction cells generalizing s with
  | nil => exact h
  | cons c cs ih =>
    rw [List.foldl_cons]
    exact ih _ (write_pathMono h)

theorem pathFold_sets {g : Gen} (cells : List (Int × Int)) (s : St) {c : Int × Int}
    (hc : c ∈ cells) (hint : interior g c.1 c.2) :
    (cells.foldl (fun t c => t.write g c.1 c.2 Cell.path) s).cell c.1 c.2 = Cell.path := by
  induction cells generalizing s with
  | nil => exact absurd hc (List.not_mem_nil c)
  | cons d cs ih =>
    rw [List.foldl_cons]
    rcases List.mem_cons.1 hc with hcd | hcs
    · subst hcd
      exact pathFold_pathMono cs _ (St.write_cell_self (interior_inBounds hint))
    · exact ih _ hcs

/-! ### Lemmas about moves, shuffling, and the walk -/

theorem pyShuffle_mem {α : Type} :
    ∀ (fuel : Nat) (r : Rng) (l : List α) (y : α), y ∈ (pyShuffle fuel r l).1 → y ∈ l := by
  intro fuel
  induction fuel with
  | zero => intro r l y hy; simp [pyShuffle] at hy
  | succ n ih =>
    intro r l y hy
    cases l with
    | nil => simp [pyShuffle] at hy
    | cons x xs =>
      simp only [pyShuffle] at hy
      rcases List.mem_cons.1 hy with h | h
      · subst h; exact List.get_mem _ _ _
      · exact List.eraseIdx_subset _ _ (ih _ _ _ h)

theorem buildMoves_mem {g : Gen} {cur : Int × Int} {y : Int × Int}
    (hy : y ∈ buildMoves g cur) : y ∈ baseMoves g := by
  simp only [buildMoves, List.mem_append] at hy
  rcases hy with (hy | hy) | hy
  · split at hy
    · have := List.eq_of_mem_replicate hy
      subst this
      simp [baseMoves]
    · split at hy
      · have := List.eq_of_mem_replicate hy
        subst this
        simp [baseMoves]
      · exact absurd hy (List.not_mem_nil y)
  · split at hy
    · have := List.eq_of_mem_replicate hy
      subst this
      simp [baseMoves]
    · split at hy
      · have := List.eq_of_mem_replicate hy
        subst this
        simp [baseMoves]
      · exact absurd hy (List.not_mem_nil y)
  · exact hy

theorem firstMove_some {g : Gen} {cur : Int × Int} :
    ∀ (ms : List (Int × Int)) {nxt : Int × Int}, firstMove g cur ms = some nxt →
      interior g nxt.1 nxt.2 ∧ ∃ m ∈ ms, nxt = (cur.1 + m.1, cur.2 + m.2) := by
  intro ms
  induction ms with
  | nil => intro nxt h; simp [firstMove] at h
  | cons m ms ih =>
    intro nxt h
    simp only [firstMove] at h
    split at h
    · rename_i hint
      injection h with h
      subst h
      exact ⟨hint, m, List.mem_cons_self m ms, rfl⟩
    · obtain ⟨h1, m2, hm2, h3⟩ := ih h
      exact ⟨h1, m2, List.mem_cons_of_mem m hm2, h3⟩

theorem walkAux_endPos {g : Gen} (fuel : Nat) (r : Rng) :
    walkAux g fuel g.endPos r = ([], r) := by
  cases fuel with
  | zero => rfl
  | succ n => simp [walkAux]

theorem walkAux_length {g : Gen} :
    ∀ (fuel : Nat) (cur : Int × Int) (r : Rng), (walkAux g fuel cur r).1.length ≤ fuel := by
  intro fuel
  induction fuel with
  | zero => intro cur r; simp [walkAux]
  | succ n ih =>
    intro cur r
    by_cases hc : cur = g.endPos
    · simp [walkAux, hc]
    · simp only [walkAux, if_neg hc]
      cases hfm : firstMove g cur (shuffleL r (buildMoves g cur)).1 with
      | none => simp
      | some nxt =>
        simp only [List.length_cons]
        exact Nat.succ_le_succ (ih nxt _)

theorem walkAux_segGood {g : Gen} :
    ∀ (fuel : Nat) (cur : Int × Int) (r : Rng), interior g cur.1 cur.2 →
      ∀ sg ∈ (walkAux g fuel cur r).1, segGood g sg := by
  intro fuel
  induction fuel with
  | zero => intro cur r _ sg hsg; simp [walkAux] at hsg
  | succ n ih =>
    intro cur r hcur sg hsg
    by_cases hc : cur = g.endPos
    · simp [walkAux, hc] at hsg
    · simp only [walkAux, if_neg hc] at hsg
      cases hfm : firstMove g cur (shuffleL r (buildMoves g cur)).1 with
      | none => rw [hfm] at hsg; simp at hsg
      | some nxt =>
        rw [hfm] at hsg
        obtain ⟨hint, m, hm, hnxt⟩ := firstMove_some _ hfm
        have hmBase : m ∈ baseMoves g :=
          buildMoves_mem (pyShuffle_mem _ _ _ m hm)
        rcases List.mem_cons.1 hsg with h | h
        · subst h
          refine ⟨hcur, hint, ?_⟩
          have hd : (nxt.1 - cur.1, nxt.2 - cur.2) = m := by
            rw [hnxt]
            cases m with
            | mk m1 m2 =>
              dsimp only
              congr 1 <;> ring
          dsimp only
          rw [hd]
          exact hmBase
        · exact ih nxt _ hint sg h

/-! ### Stage-2 carving invariants -/

theorem carveSeg_inv {g : Gen} (hs : 0 < g.step) {sg : Seg} (hsg : segGood g sg)
    {s : St} (h : Inv g s) : Inv g (carveSeg g s sg) := by
  unfold carveSeg
  exact pathFold_inv _ _ (corridor_interior hs hsg.2.2 hsg.1 hsg.2.1) h

theorem carveSeg_noMarks {g : Gen} {sg : Seg} {s : St} (h : NoMarks s) :
    NoMarks (carveSeg g s sg) := by
  unfold carveSeg
  exact pathFold_noMarks _ _ h

theorem carveSeg_pathMono {g : Gen} {sg : Seg} {s : St} {a b : Int}
    (h : s.cell a b = Cell.path) : (carveSeg g s sg).cell a b = Cell.path := by
  unfold carveSeg
  exact pathFold_pathMono _ _ h

theorem carveSeg_head {g : Gen} (hs : 0 < g.step) {sg : Seg} (hsg : segGood g sg)
    (s : St) : (carveSeg g s sg).cell sg.x sg.z = Cell.path := by
  unfold carveSeg
  have hmem : ((sg.x, sg.z) : Int × Int) ∈ corridorCells g.step sg.px sg.pz sg.x sg.z := by
    rw [corridor_decomp hs hsg.2.2]
    exact List.mem_append_right _ (List.mem_singleton.2 rfl)
  exact pathFold_sets _ s hmem hsg.2.1

theorem carvePath_spec {g : Gen} (hs : 0 < g.step) (path : List Seg) :
    ∀ (s : St), Inv g s → NoMarks s → (∀ sg ∈ path, segGood g sg) →
      Inv g (path.foldl (carveSeg g) s) ∧ NoMarks (path.foldl (carveSeg g) s) ∧
      (∀ sg ∈ path, (path.foldl (carveSeg g) s).cell sg.x sg.z = Cell.path) ∧
      (∀ a b : Int, s.cell a b = Cell.path →
        (path.foldl (carveSeg g) s).cell a b = Cell.path) := by
  induction path with
  | nil =>
    intro s hInv hNM _
    exact ⟨hInv, hNM, by intro sg hsg; simp at hsg, fun a b h => h⟩
  | cons sg rest ih =>
    intro s hInv hNM hgood
    rw [List.foldl_cons]
    have hsg : segGood g sg := hgood sg (List.mem_cons_self sg rest)
    have hrest : ∀ t ∈ rest, segGood g t :=
      fun t ht => hgood t (List.mem_cons_of_mem sg ht)
    obtain ⟨h1, h2, h3, h4⟩ :=
      ih (carveSeg g s sg) (carveSeg_inv hs hsg hInv) (carveSeg_noMarks hNM) hrest
    refine ⟨h1, h2, ?_, fun a b h => h4 a b (carveSeg_pathMono h)⟩
    intro t ht
    rcases List.mem_cons.1 ht with h | h
    · subst h
      exact h4 t.x t.z (carveSeg_head hs hsg s)
    · exact h3 t h

theorem addCarved_mem :
    ∀ (path acc : List Seg) (sg : Seg), sg ∈ addCarved acc path → sg ∈ acc ∨ sg ∈ path := by
  intro path
  induction path with
  | nil => intro acc sg h; exact Or.inl h
  | cons a path ih =>
    intro acc sg h
    have h2 : sg ∈ addCarved (if a ∈ acc then acc else acc ++ [a]) path := h
    rcases ih _ sg h2 with h1 | h1
    · split at h1
      · exact Or.inl h1
      · rcases List.mem_append.1 h1 with h3 | h3
        · exact Or.inl h3
        · exact Or.inr (List.mem_cons.2 (Or.inl (List.mem_singleton.1 h3)))
    · exact Or.inr (List.mem_cons_of_mem a h1)

theorem stage2_spec {g : Gen} (hs : 0 < g.step)
    (hstart : interior g g.startPos.1 g.startPos.2) :
    ∀ (n : Nat) (s : St) (r : Rng) (acc : List Seg),
      Inv g s → NoMarks s →
      (∀ sg ∈ acc, segGood g sg ∧ s.cell sg.x sg.z = Cell.path) →
      Inv g (stage2 g n s r acc).1 ∧ NoMarks (stage2 g n s r acc).1 ∧
      (∀ sg ∈ (stage2 g n s r acc).2.2, segGood g sg ∧
        (stage2 g n s r acc).1.cell sg.x sg.z = Cell.path) ∧
      (∀ a b : Int, s.cell a b = Cell.path →
        (stage2 g n s r acc).1.cell a b = Cell.path) := by
  intro n
  induction n with
  | zero =>
    intro s r acc hInv hNM hacc
    exact ⟨hInv, hNM, hacc, fun a b h => h⟩
  | succ n ih =>
    intro s r acc hInv hNM hacc
    have hw : ∀ sg ∈ (walkPath g r).1, segGood g sg :=
      walkAux_segGood _ g.startPos r hstart
    obtain ⟨h1, h2, h3, h4⟩ := carvePath_spec hs (walkPath g r).1 s hInv hNM hw
    have hacc1 : ∀ sg ∈ addCarved acc (walkPath g r).1, segGood g sg ∧
        ((walkPath g r).1.foldl (carveSeg g) s).cell sg.x sg.z = Cell.path := by
      intro sg hsg
      rcases addCarved_mem _ _ _ hsg with h | h
      · exact ⟨(hacc sg h).1, h4 _ _ (hacc sg h).2⟩
      · exact ⟨hw sg h, h3 sg h⟩
    have hmain := ih ((walkPath g r).1.foldl (carveSeg g) s) (walkPath g r).2
      (addCarved acc (walkPath g r).1) h1 h2 hacc1
    exact ⟨hmain.1, hmain.2.1, hmain.2.2.1,
      fun a b hp => hmain.2.2.2 a b (h4 a b hp)⟩


/-! ### Branch-carve fold invariants -/

theorem ccStep_wall {g : Gen} {s : St} {k : Int} {c : Int × Int}
    (hrd : s.cell c.1 c.2 = Cell.wall) :
    ccStep g (s, k) c = ((St.read g s c.1 c.2).2.write g c.1 c.2 Cell.path, k + 1) := by
  unfold ccStep
  dsimp only
  rw [St.read_fst, if_pos hrd]

theorem ccStep_skip {g : Gen} {s : St} {k : Int} {c : Int × Int}
    (hrd : s.cell c.1 c.2 ≠ Cell.wall) :
    ccStep g (s, k) c = ((St.read g s c.1 c.2).2, k) := by
  unfold ccStep
  dsimp only
  rw [St.read_fst, if_neg hrd]

theorem ccFold_spec {g : Gen} (cells : List (Int × Int)) :
    ∀ (s : St) (k : Int),
      (k ≤ (cells.foldl (ccStep g) (s, k)).2 ∧
        (cells.foldl (ccStep g) (s, k)).2 ≤ k + cells.length) ∧
      (∀ a b : Int, s.cell a b = Cell.path →
        ((cells.foldl (ccStep g) (s, k)).1).cell a b = Cell.path) ∧
      (NoMarks s → NoMarks ((cells.foldl (ccStep g) (s, k)).1)) ∧
      ((∀ c ∈ cells, interior g c.1 c.2) → Inv g s →
        Inv g ((cells.foldl (ccStep g) (s, k)).1)) ∧
      (∀ p : Int × Int, (∀ c ∈ cells, c ≠ p) →
        ((cells.foldl (ccStep g) (s, k)).1).cell p.1 p.2 = s.cell p.1 p.2) := by
  induction cells with
  | nil =>
    intro s k
    refine ⟨⟨le_refl k, by simp⟩, fun a b h => h, fun h => h, fun _ h => h, fun p _ => rfl⟩
  | cons c cs ih =>
    intro s k
    rw [List.foldl_cons]
    by_cases hrd : s.cell c.1 c.2 = Cell.wall
    · rw [ccStep_wall hrd]
      obtain ⟨⟨m1, m2⟩, hmono, hnm, hinv, hpres⟩ :=
        ih ((St.read g s c.1 c.2).2.write g c.1 c.2 Cell.path) (k + 1)
      refine ⟨⟨by omega, by simp only [List.length_cons]; push_cast; omega⟩, ?_, ?_, ?_, ?_⟩
      · intro a b h
        apply hmono
        apply write_pathMono
        rw [St.read_snd_cell]
        exact h
      · intro h
        apply hnm
        apply write_noMarks (Or.inr rfl)
        intro a b
        rw [St.read_snd_cell]
        exact h a b
      · intro hin hInv
        apply hinv (fun d hd => hin d (List.mem_cons_of_mem c hd))
        apply write_inv (hin c (List.mem_cons_self c cs))
        obtain ⟨hok, hbd⟩ := hInv
        refine ⟨?_, ?_⟩
        · rw [St.read_snd_ok (interior_inBounds (hin c (List.mem_cons_self c cs)))]
          exact hok
        · intro a b hni
          rw [St.read_snd_cell]
          exact hbd a b hni
      · intro p hp
        rw [hpres p (fun d hd => hp d (List.mem_cons_of_mem c hd))]
        rw [St.write_cell_ne ?_, St.read_snd_cell]
        have hne := hp c (List.mem_cons_self c cs)
        by_contra hcon
        push_neg at hcon
        exact (hne (Prod.ext hcon.1.symm hcon.2.symm)).elim
    · rw [ccStep_skip hrd]
      obtain ⟨⟨m1, m2⟩, hmono, hnm, hinv, hpres⟩ := ih (St.read g s c.1 c.2).2 k
      refine ⟨⟨by omega, by simp only [List.length_cons]; push_cast; omega⟩, ?_, ?_, ?_, ?_⟩
      · intro a b h
        apply hmono
        rw [St.read_snd_cell]
        exact h
      · intro h
        apply hnm
        intro a b
        rw [St.read_snd_cell]
        exact h a b
      · intro hin hInv
        apply hinv (fun d hd => hin d (List.mem_cons_of_mem c hd))
        obtain ⟨hok, hbd⟩ := hInv
        refine ⟨?_, ?_⟩
        · rw [St.read_snd_ok (interior_inBounds (hin c (List.mem_cons_self c cs)))]
          exact hok
        · intro a b hni
          rw [St.read_snd_cell]
          exact hbd a b hni
      · intro p hp
        rw [hpres p (fun d hd => hp d (List.mem_cons_of_mem c hd))]
        rw [St.read_snd_cell]

theorem ccStepT_wall {g : Gen} {t : St × Int} {c : Int × Int}
    (hrd : t.1.cell c.1 c.2 = Cell.wall) :
    ccStep g t c = ((St.read g t.1 c.1 c.2).2.write g c.1 c.2 Cell.path, t.2 + 1) := by
  obtain ⟨s, k⟩ := t
  exact ccStep_wall hrd

/-- The corridor starts at the popped cell `(px, pz)` (the `i = 0` term). -/
theorem corridor_head (step px pz x z : Int) :
    corridorCells step px pz x z
      = (px, pz) :: (List.range step.toNat).map (fun (i : Nat) =>
          (px + (x - px) / step * ((i : Int) + 1), pz + (z - pz) / step * ((i : Int) + 1))) := by
  unfold corridorCells
  rw [List.range_succ_eq_map, List.map_cons, List.map_map]
  refine congrArg₂ List.cons ?_ ?_
  · norm_num
  · apply List.map_congr_left
    intro i _
    simp only [Function.comp_apply]
    push_cast
    ring_nf

/-- When the target neighbor is a `WALL` cell one lattice move away, the
branch carve flips it (so at least one flip happens) and leaves it `PATH`. -/
theorem carveCount_spec {g : Gen} (hs : 0 < g.step) {s : St} {x z nx nz : Int}
    (hd : (nx - x, nz - z) ∈ baseMoves g) (hn : interior g nx nz)
    (hw : s.cell nx nz = Cell.wall) :
    1 ≤ (carveCount g s x z nx nz).2 ∧
    (carveCount g s x z nx nz).1.cell nx nz = Cell.path := by
  unfold carveCount
  rw [corridor_decomp hs hd, List.foldl_append, List.foldl_cons, List.foldl_nil]
  have hfr := ccFold_spec (g := g) ((List.range g.step.toNat).map fun (i : Nat) =>
    (x + (nx - x) / g.step * (i : Int), z + (nz - z) / g.step * (i : Int))) s 0
  have hcell : (((List.range g.step.toNat).map fun (i : Nat) =>
      (x + (nx - x) / g.step * (i : Int), z + (nz - z) / g.step * (i : Int))).foldl
        (ccStep g) (s, 0)).1.cell nx nz = Cell.wall := by
    rw [hfr.2.2.2.2 (nx, nz) (corridor_front_ne hs hd)]
    exact hw
  rw [ccStepT_wall hcell]
  constructor
  · dsimp only
    have := hfr.1.1
    omega
  · exact St.write_cell_self (interior_inBounds hn)

/-- When the popped frontier cell is already carved, the branch carve flips
at most `step` cells (the `i = 0` cell is not `WALL`). -/
theorem carveCount_le {g : Gen} (hs : 0 < g.step) {s : St} {x z : Int} (nx nz : Int)
    (hpath : s.cell x z = Cell.path) :
    (carveCount g s x z nx nz).2 ≤ g.step := by
  unfold carveCount
  rw [corridor_head, List.foldl_cons]
  rw [ccStep_skip (by
    show s.cell x z ≠ Cell.wall
    rw [hpath]
    exact fun h => Cell.noConfusion h)]
  have := (ccFold_spec (g := g) ((List.range g.step.toNat).map fun (i : Nat) =>
    (x + (nx - x) / g.step * ((i : Int) + 1), z + (nz - z) / g.step * ((i : Int) + 1)))
    (St.read g s ((x, z) : Int × Int).1 ((x, z) : Int × Int).2).2 0).1.2
  rw [List.length_map, List.length_range] at this
  have hcast : ((g.step.toNat : Int)) = g.step := Int.toNat_of_nonneg (le_of_lt hs)
  omega

/-- Invariant and monotonicity facts of the branch carve, packaged for the
loop proof. -/
theorem carveCount_state {g : Gen} (hs : 0 < g.step) {s : St} {x z nx nz : Int}
    (hd : (nx - x, nz - z) ∈ baseMoves g)
    (hx : interior g x z) (hn : interior g nx nz) :
    (Inv g s → Inv g (carveCount g s x z nx nz).1) ∧
    (NoMarks s → NoMarks (carveCount g s x z nx nz).1) ∧
    (∀ a b : Int, s.cell a b = Cell.path →
      (carveCount g s x z nx nz).1.cell a b = Cell.path) ∧
    0 ≤ (carveCount g s x z nx nz).2 := by
  unfold carveCount
  have hfr := ccFold_spec (g := g) (corridorCells g.step x z nx nz) s 0
  exact ⟨fun h => hfr.2.2.2.1 (corridor_interior hs hd hx hn) h,
    hfr.2.2.1, hfr.2.1, hfr.1.1⟩

theorem neighborList_mem {g : Gen} {s : St} {x z : Int} {q : Int × Int}
    (hq : q ∈ neighborList g s x z) :
    interior g q.1 q.2 ∧ s.cell q.1 q.2 = Cell.wall ∧ (q.1 - x, q.2 - z) ∈ baseMoves g := by
  unfold neighborList at hq
  simp only [List.mem_filterMap, List.mem_cons, List.not_mem_nil, or_false] at hq
  obtain ⟨d, hd, hfd⟩ := hq
  split at hfd
  · rename_i hcond
    injection hfd with hfd
    subst hfd
    refine ⟨hcond.1, hcond.2, ?_⟩
    have hdelta : ((x + d.1 - x, z + d.2 - z) : Int × Int) = d := by
      cases d with
      | mk d1 d2 =>
        dsimp only
        congr 1 <;> ring
    dsimp only
    rw [hdelta]
    rcases hd with h | h | h | h <;> subst h <;> simp [baseMoves]
  · exact absurd hfd (by simp)


/-! ### Branch-loop lemmas -/

theorem branchLoop_stack_nil (g : Gen) (fuel : Nat) (s : St) (r : Rng) (b : Int) :
    branchLoop g fuel s r b [] = (s, r, b) := by
  cases fuel <;> rfl

theorem branchLoop_succ_cons (g : Gen) (fuel : Nat) (s : St) (r : Rng) (b : Int)
    (x z : Int) (rest : List (Int × Int)) :
    branchLoop g (fuel + 1) s r b ((x, z) :: rest)
      = if b ≤ 0 then (s, r, b)
        else
          match neighborList g s x z with
          | [] => branchLoop g fuel s r b rest
          | a :: tl =>
            branchLoop g fuel
              (carveCount g s x z
                ((a :: tl).get ⟨r.head % (a :: tl).length, Nat.mod_lt _ (Nat.succ_pos tl.length)⟩).1
                ((a :: tl).get ⟨r.head % (a :: tl).length, Nat.mod_lt _ (Nat.succ_pos tl.length)⟩).2).1
              r.tail
              (b - (carveCount g s x z
                ((a :: tl).get ⟨r.head % (a :: tl).length, Nat.mod_lt _ (Nat.succ_pos tl.length)⟩).1
                ((a :: tl).get ⟨r.head % (a :: tl).length, Nat.mod_lt _ (Nat.succ_pos tl.length)⟩).2).2)
              (((a :: tl).get ⟨r.head % (a :: tl).length, Nat.mod_lt _ (Nat.succ_pos tl.length)⟩) :: rest)
      := rfl

theorem branchLoop_nonpos (g : Gen) (fuel : Nat) (s : St) (r : Rng) {b : Int}
    (hb : b ≤ 0) (stack : List (Int × Int)) :
    branchLoop g fuel s r b stack = (s, r, b) := by
  cases fuel with
  | zero => rfl
  | succ fuel =>
    cases stack with
    | nil => rfl
    | cons q rest =>
      obtain ⟨x, z⟩ := q
      rw [branchLoop_succ_cons, if_pos hb]

/-- Invariant preservation and budget bounds of the growth loop: the grid
invariant, absence of markers and carved cells survive; the final
`cells_to_add` value never exceeds the entry value and, because every carve
from an already-carved frontier cell flips at most `step` cells, it never
drops below `1 - step`. -/
theorem branchLoop_spec {g : Gen} (hs : 0 < g.step) :
    ∀ (fuel : Nat) (s : St) (r : Rng) (b : Int) (stack : List (Int × Int)),
      Inv g s → NoMarks s → frontGood g s stack →
      Inv g (branchLoop g fuel s r b stack).1 ∧
      NoMarks (branchLoop g fuel s r b stack).1 ∧
      (∀ a c : Int, s.cell a c = Cell.path →
        (branchLoop g fuel s r b stack).1.cell a c = Cell.path) ∧
      (branchLoop g fuel s r b stack).2.2 ≤ b ∧
      (1 - g.step ≤ b → 1 - g.step ≤ (branchLoop g fuel s r b stack).2.2) := by
  intro fuel
  induction fuel with
  | zero =>
    intro s r b stack hInv hNM _
    exact ⟨hInv, hNM, fun a c h => h, le_refl b, fun h => h⟩
  | succ fuel ih =>
    intro s r b stack hInv hNM hFront
    cases stack with
    | nil =>
      rw [branchLoop_stack_nil]
      exact ⟨hInv, hNM, fun a c h => h, le_refl b, fun h => h⟩
    | cons q rest =>
      obtain ⟨x, z⟩ := q
      rw [branchLoop_succ_cons]
      by_cases hb : b ≤ 0
      · rw [if_pos hb]
        exact ⟨hInv, hNM, fun a c h => h, le_refl b, fun h => h⟩
      · rw [if_neg hb]
        cases hn : neighborList g s x z with
        | nil =>
          exact ih s r b rest hInv hNM (fun q hq => hFront q (List.mem_cons_of_mem _ hq))
        | cons a tl =>
          have hnbMem : (a :: tl).get
              ⟨r.head % (a :: tl).length, Nat.mod_lt _ (Nat.succ_pos tl.length)⟩
                ∈ neighborList g s x z := by
            rw [hn]; exact List.get_mem _ _ _
          obtain ⟨hnbInt, hnbWall, hnbDelta⟩ := neighborList_mem hnbMem
          have hxzInt : interior g x z := (hFront (x, z) (List.mem_cons_self _ _)).1
          have hxzPath : s.cell x z = Cell.path := (hFront (x, z) (List.mem_cons_self _ _)).2
          obtain ⟨hcs, hflip⟩ := carveCount_spec hs hnbDelta hnbInt hnbWall
          obtain ⟨hccInv, hccNM, hccMono, hcc0⟩ := carveCount_state hs hnbDelta hxzInt hnbInt
          have hle := carveCount_le hs ((a :: tl).get
            ⟨r.head % (a :: tl).length, Nat.mod_lt _ (Nat.succ_pos tl.length)⟩).1
            ((a :: tl).get
            ⟨r.head % (a :: tl).length, Nat.mod_lt _ (Nat.succ_pos tl.length)⟩).2 hxzPath
          have hFront2 : frontGood g (carveCount g s x z
              ((a :: tl).get ⟨r.head % (a :: tl).length, Nat.mod_lt _ (Nat.succ_pos tl.length)⟩).1
              ((a :: tl).get ⟨r.head % (a :: tl).length, Nat.mod_lt _ (Nat.succ_pos tl.length)⟩).2).1
              (((a :: tl).get ⟨r.head % (a :: tl).length, Nat.mod_lt _ (Nat.succ_pos tl.length)⟩) :: rest) := by
            intro q hq
            rcases List.mem_cons.1 hq with h | h
            · subst h; exact ⟨hnbInt, hflip⟩
            · obtain ⟨h1, h2⟩ := hFront q (List.mem_cons_of_mem _ h)
              exact ⟨h1, hccMono _ _ h2⟩
          obtain ⟨k1, k2, k3, k4, k5⟩ := ih _ r.tail _ _ (hccInv hInv) (hccNM hNM) hFront2
          refine ⟨k1, k2, fun a2 c2 h => k3 a2 c2 (hccMono a2 c2 h), ?_, ?_⟩
          · exact le_trans k4 (by omega)
          · intro hlow
            exact k5 (by omega)

/-- Fuel-insensitivity of the growth loop beyond `budget.toNat + |frontier|`:
with that much fuel the loop always reaches its own exit condition (budget
exhausted or frontier empty), so the fuel in the model is immaterial. -/
theorem branchLoop_stable {g : Gen} (hs : 0 < g.step) :
    ∀ (n m : Nat) (s : St) (r : Rng) (b : Int) (stack : List (Int × Int)),
      b.toNat + stack.length ≤ n → b.toNat + stack.length ≤ m →
      branchLoop g n s r b stack = branchLoop g m s r b stack := by
  intro n
  induction n with
  | zero =>
    intro m s r b stack h1 _
    have hb : b ≤ 0 := by omega
    have hstack : stack = [] := by
      cases stack with
      | nil => rfl
      | cons q rest => simp only [List.length_cons] at h1; omega
    subst hstack
    rw [branchLoop_stack_nil, branchLoop_stack_nil]
  | succ n ih =>
    intro m s r b stack h1 h2
    cases m with
    | zero =>
      have hb : b ≤ 0 := by omega
      have hstack : stack = [] := by
        cases stack with
        | nil => rfl
        | cons q rest => simp only [List.length_cons] at h2; omega
      subst hstack
      rw [branchLoop_stack_nil, branchLoop_stack_nil]
    | succ m =>
      cases stack with
      | nil => rw [branchLoop_stack_nil, branchLoop_stack_nil]
      | cons q rest =>
        obtain ⟨x, z⟩ := q
        rw [branchLoop_succ_cons, branchLoop_succ_cons]
        by_cases hb : b ≤ 0
        · rw [if_pos hb, if_pos hb]
        · rw [if_neg hb, if_neg hb]
          simp only [List.length_cons] at h1 h2
          cases hn : neighborList g s x z with
          | nil => exact ih m s r b rest (by omega) (by omega)
          | cons a tl =>
            have hnbMem : (a :: tl).get
                ⟨r.head % (a :: tl).length, Nat.mod_lt _ (Nat.succ_pos tl.length)⟩
                  ∈ neighborList g s x z := by
              rw [hn]; exact List.get_mem _ _ _
            obtain ⟨hnbInt, hnbWall, hnbDelta⟩ := neighborList_mem hnbMem
            have hflip := (carveCount_spec hs hnbDelta hnbInt hnbWall).1
            have hlen : (((a :: tl).get
                ⟨r.head % (a :: tl).length, Nat.mod_lt _ (Nat.succ_pos tl.length)⟩) :: rest).length
                  = rest.length + 1 := List.length_cons _ _
            exact ih m _ r.tail _ _ (by omega) (by omega)


/-! ### Pipeline-level lemmas -/

theorem stage2_degenerate {g : Gen} (h : g.startPos = g.endPos) :
    ∀ (n : Nat) (s : St) (r : Rng) (acc : List Seg), stage2 g n s r acc = (s, r, acc) := by
  intro n
  induction n with
  | zero => intro s r acc; rfl
  | succ n ih =>
    intro s r acc
    have hwp : walkPath g r = ([], r) := by
      unfold walkPath
      rw [h]
      exact walkAux_endPos _ _
    show stage2 g n ((walkPath g r).1.foldl (carveSeg g) s) (walkPath g r).2
        (addCarved acc (walkPath g r).1) = (s, r, acc)
    rw [hwp]
    exact ih s r acc

/-- Interior position of the sanitized start for a valid input. -/
theorem init_start_interior (p : Params) (h1 : 1 ≤ p.startPos.1) (h2 : 1 ≤ p.startPos.2) :
    interior (Gen.init p) (Gen.init p).startPos.1 (Gen.init p).startPos.2 := by
  obtain ⟨_, b1, b2, b3, b4, _, _⟩ := init_start_spec p h1 h2
  unfold interior
  omega

/-- Interior position of the sanitized end for a valid input. -/
theorem init_end_interior (p : Params) (h1 : 1 ≤ p.endPos.1) (h2 : 1 ≤ p.endPos.2) :
    interior (Gen.init p) (Gen.init p).endPos.1 (Gen.init p).endPos.2 := by
  obtain ⟨_, b1, b2, b3, b4, _, _⟩ := init_end_spec p h1 h2
  unfold interior
  omega

theorem branchPhase_nil (g : Gen) (s : St) (r : Rng) : branchPhase g s r [] = (s, r, 0) := rfl

/-- The pipeline decomposition of `generateFrom` for a valid input: the
returned grid is the pre-marker state with `START` then `END` stamped; that
pre-marker state satisfies the safety invariant and holds no markers; when
the sanitized endpoints coincide nothing is carved at all; and the final
branch budget lies in `[1 - step, budget]`. -/
theorem generateFrom_master (p : Params) (hp : p.valid) (r : Rng) :
    ∃ s3 : St,
      (generateFrom p r).st
        = (s3.write (Gen.init p) (Gen.init p).startPos.1 (Gen.init p).startPos.2
            Cell.startM).write (Gen.init p) (Gen.init p).endPos.1 (Gen.init p).endPos.2
            Cell.endM ∧
      Inv (Gen.init p) s3 ∧ NoMarks s3 ∧
      ((Gen.init p).startPos = (Gen.init p).endPos →
        s3 = St.initial ∧ (generateFrom p r).carved = []) ∧
      (generateFrom p r).finalBudget ≤ (((generateFrom p r).carved.length / 5 : Nat) : Int) ∧
      1 - (Gen.init p).step ≤ (generateFrom p r).finalBudget := by
  have hs := init_step_pos p
  obtain ⟨h1, h2, h3, h4, _, _⟩ := hp
  have hstart := init_start_interior p h1 h2
  set g := Gen.init p with hg
  set n := (numPaths p.fillPercent).toNat with hn
  set s2 := stage2 g n St.initial r [] with hs2
  set s3 := (if p.branching then branchPhase g s2.1 s2.2.1 s2.2.2
             else (s2.1, s2.2.1, ((s2.2.2.length / 5 : Nat) : Int))) with hs3
  have hstEq : (generateFrom p r).st
      = (s3.1.write g g.startPos.1 g.startPos.2 Cell.startM).write g
          g.endPos.1 g.endPos.2 Cell.endM := rfl
  have hcarvedEq : (generateFrom p r).carved = s2.2.2 := rfl
  have hfbEq : (generateFrom p r).finalBudget = s3.2.2 := rfl
  obtain ⟨hInv2, hNM2, hheads, _⟩ := stage2_spec hs hstart n St.initial r []
    ⟨rfl, fun _ _ _ => rfl⟩ (fun _ _ => Or.inl rfl) (fun sg h => absurd h (List.not_mem_nil sg))
  have hB0 : (0 : Int) ≤ ((s2.2.2.length / 5 : Nat) : Int) := Int.natCast_nonneg _
  have hmain : Inv g s3.1 ∧ NoMarks s3.1 ∧
      s3.2.2 ≤ ((s2.2.2.length / 5 : Nat) : Int) ∧ 1 - g.step ≤ s3.2.2 := by
    by_cases hbr : p.branching
    · have hs3e : s3 = branchPhase g s2.1 s2.2.1 s2.2.2 := by rw [hs3, if_pos hbr]
      have hfront : frontGood g s2.1
          ((shuffleL s2.2.1 (s2.2.2.map fun sg => (sg.x, sg.z))).1.reverse) := by
        intro q hq
        rw [List.mem_reverse] at hq
        have hq2 := pyShuffle_mem _ _ _ q hq
        obtain ⟨sg, hsg, rfl⟩ := List.mem_map.1 hq2
        exact ⟨(hheads sg hsg).1.2.1, (hheads sg hsg).2⟩
      obtain ⟨k1, k2, _, k4, k5⟩ := branchLoop_spec hs
        ((((s2.2.2.length / 5 : Nat) : Int)).toNat
          + (shuffleL s2.2.1 (s2.2.2.map fun sg => (sg.x, sg.z))).1.reverse.length)
        s2.1 (shuffleL s2.2.1 (s2.2.2.map fun sg => (sg.x, sg.z))).2
        ((s2.2.2.length / 5 : Nat) : Int)
        ((shuffleL s2.2.1 (s2.2.2.map fun sg => (sg.x, sg.z))).1.reverse)
        hInv2 hNM2 hfront
      rw [hs3e]
      exact ⟨k1, k2, k4, k5 (by omega)⟩
    · have hs3e : s3 = (s2.1, s2.2.1, ((s2.2.2.length / 5 : Nat) : Int)) := by
        rw [hs3, if_neg hbr]
      rw [hs3e]
      refine ⟨hInv2, hNM2, le_refl _, ?_⟩
      show 1 - g.step ≤ ((s2.2.2.length / 5 : Nat) : Int)
      omega
  have hdeg : g.startPos = g.endPos → s3.1 = St.initial ∧ s2.2.2 = [] := by
    intro heq
    have hd := stage2_degenerate heq n St.initial r []
    have hd1 : s2 = (St.initial, r, []) := by rw [hs2, hd]
    constructor
    · by_cases hbr : p.branching
      · have hs3e : s3 = branchPhase g s2.1 s2.2.1 s2.2.2 := by rw [hs3, if_pos hbr]
        rw [hs3e, hd1]
        show (branchPhase g St.initial r []).1 = St.initial
        rw [branchPhase_nil]
      · have hs3e : s3 = (s2.1, s2.2.1, ((s2.2.2.length / 5 : Nat) : Int)) := by
          rw [hs3, if_neg hbr]
        rw [hs3e, hd1]
    · rw [hd1]
  refine ⟨s3.1, hstEq, hmain.1, hmain.2.1, ?_, ?_, ?_⟩
  · intro heq
    exact ⟨(hdeg heq).1, by rw [hcarvedEq, (hdeg heq).2]⟩
  · rw [hfbEq, hcarvedEq]
    exact hmain.2.2.1
  · rw [hfbEq]
    exact hmain.2.2.2


theorem pair_ne {x z : Int} {q : Int × Int} (h : (x, z) ≠ q) : x ≠ q.1 ∨ z ≠ q.2 := by
  by_contra hc
  push_neg at hc
  exact h (Prod.ext hc.1 hc.2)

/-! ### Claim theorems: termination bounds, safety, markers, branch budget -/

/-- C1: `generate` is total on every valid input (every loop in the model is
exhibited with an explicit bound): the grid dimensions satisfy
`width ≡ 1 (mod step)` and `height ≡ 1 (mod step)`; a random walk records at
most `width · height` steps; and the branch-growth loop returns unchanged
when its frontier is empty or its budget is nonpositive, and is insensitive
to any fuel of at least `budget.toNat + |frontier|` (it always reaches its
own exit condition within that many iterations). -/
theorem claim_C1 (p : Params) (hp : p.valid) (r : Rng) (o : Out) (ho : o = generate p r) :
    (o.gen.width - 1) % o.gen.step = 0 ∧
    (o.gen.height - 1) % o.gen.step = 0 ∧
    (∀ r0 : Rng, (walkPath o.gen r0).1.length ≤ (o.gen.width * o.gen.height).toNat) ∧
    (∀ (fuel : Nat) (s : St) (r0 : Rng) (b : Int),
      branchLoop o.gen fuel s r0 b [] = (s, r0, b)) ∧
    (∀ (fuel : Nat) (s : St) (r0 : Rng) (b : Int) (stack : List (Int × Int)), b ≤ 0 →
      branchLoop o.gen fuel s r0 b stack = (s, r0, b)) ∧
    (∀ (n m : Nat) (s : St) (r0 : Rng) (b : Int) (stack : List (Int × Int)),
      b.toNat + stack.length ≤ n → b.toNat + stack.length ≤ m →
      branchLoop o.gen n s r0 b stack = branchLoop o.gen m s r0 b stack) := by
  subst ho
  rw [generate_gen]
  have hs := init_step_pos p
  refine ⟨?_, ?_, ?_, ?_, ?_, ?_⟩
  · rw [init_width]
    obtain ⟨k, hk⟩ := adjustDim_form (Gen.init p).step
      (max p.startPos.1 p.endPos.1 + (Gen.init p).step + 2)
    rw [hk]
    have he : k * (Gen.init p).step + 1 - 1 = k * (Gen.init p).step := by ring
    rw [he, Int.mul_emod_left]
  · rw [init_height]
    obtain ⟨k, hk⟩ := adjustDim_form (Gen.init p).step
      (max p.startPos.2 p.endPos.2 + (Gen.init p).step + 2)
    rw [hk]
    have he : k * (Gen.init p).step + 1 - 1 = k * (Gen.init p).step := by ring
    rw [he, Int.mul_emod_left]
  · intro r0
    exact walkAux_length _ _ _
  · intro fuel s r0 b
    exact branchLoop_stack_nil _ _ _ _ _
  · intro fuel s r0 b stack hb
    exact branchLoop_nonpos _ _ _ _ hb _
  · exact branchLoop_stable hs

theorem claim_C1_witness :
    ((generate pSmall zeroStream).gen.width - 1) % (generate pSmall zeroStream).gen.step = 0 :=
  (claim_C1 pSmall (by decide) zeroStream (generate pSmall zeroStream) rfl).1

/-- C3: every cell on the outer border of the returned grid holds `WALL`
(in fact every non-interior position does): no stage of generation writes
outside the strict interior.  The statement covers every valid `spacing`,
including `spacing = 0`. -/
theorem claim_C3 (p : Params) (hp : p.valid) (r : Rng) (o : Out) (ho : o = generate p r) :
    ∀ x z : Int, (x = 0 ∨ x = o.gen.width - 1 ∨ z = 0 ∨ z = o.gen.height - 1) →
      o.st.cell x z = Cell.wall := by
  subst ho
  obtain ⟨r2, hEq⟩ := generate_eq_generateFrom p r
  rw [hEq, generateFrom_gen]
  intro x z hborder
  have hni : ¬ interior (Gen.init p) x z := by
    unfold interior
    omega
  obtain ⟨s3, hst, hInv, _, _, _, _⟩ := generateFrom_master p hp r2
  rw [hst]
  have hstart := init_start_interior p hp.1 hp.2.1
  have hend := init_end_interior p hp.2.2.1 hp.2.2.2.1
  have hne1 : x ≠ (Gen.init p).endPos.1 ∨ z ≠ (Gen.init p).endPos.2 := by
    apply pair_ne
    intro hc
    apply hni
    rw [show x = (Gen.init p).endPos.1 from congrArg Prod.fst hc,
        show z = (Gen.init p).endPos.2 from congrArg Prod.snd hc]
    exact hend
  have hne2 : x ≠ (Gen.init p).startPos.1 ∨ z ≠ (Gen.init p).startPos.2 := by
    apply pair_ne
    intro hc
    apply hni
    rw [show x = (Gen.init p).startPos.1 from congrArg Prod.fst hc,
        show z = (Gen.init p).startPos.2 from congrArg Prod.snd hc]
    exact hstart
  rw [St.write_cell_ne hne1, St.write_cell_ne hne2]
  exact hInv.2 x z hni

theorem claim_C3_witness : (generate pSmall zeroStream).st.cell 0 0 = Cell.wall :=
  claim_C3 pSmall (by decide) zeroStream (generate pSmall zeroStream) rfl 0 0 (Or.inl rfl)

/-- C10: on every valid input, every unguarded grid access made during
`generate` (corridor writes of both carving stages, the branch carve's
`WALL` reads, marker stamping) uses indices inside
`[0, width) × [0, height)`: the out-of-bounds flag of the model is never
latched. -/
theorem claim_C10 (p : Params) (hp : p.valid) (r : Rng) (o : Out) (ho : o = generate p r) :
    o.st.ok = true := by
  subst ho
  obtain ⟨r2, hEq⟩ := generate_eq_generateFrom p r
  rw [hEq]
  obtain ⟨s3, hst, hInv, _, _, _, _⟩ := generateFrom_master p hp r2
  rw [hst]
  have hstart := init_start_interior p hp.1 hp.2.1
  have hend := init_end_interior p hp.2.2.1 hp.2.2.2.1
  rw [St.write_ok (interior_inBounds hend), St.write_ok (interior_inBounds hstart)]
  exact hInv.1

theorem claim_C10_witness : (generate pSmallBranch zeroStream).st.ok = true :=
  claim_C10 pSmallBranch (by decide) zeroStream (generate pSmallBranch zeroStream) rfl

/-- C6: exactly one cell holds `END` (the sanitized end, stamped last); when
the sanitized endpoints differ, exactly one cell holds `START`; when they
coincide, no cell holds `START`, the shared cell holds `END`, and it is the
only non-`WALL` cell of the grid. -/
theorem claim_C6 (p : Params) (hp : p.valid) (r : Rng) (o : Out) (ho : o = generate p r) :
    o.st.cell o.gen.endPos.1 o.gen.endPos.2 = Cell.endM ∧
    (∀ x z : Int, o.st.cell x z = Cell.endM → (x, z) = o.gen.endPos) ∧
    (o.gen.startPos ≠ o.gen.endPos →
      ∀ x z : Int, (o.st.cell x z = Cell.startM ↔ (x, z) = o.gen.startPos)) ∧
    (o.gen.startPos = o.gen.endPos →
      (∀ x z : Int, o.st.cell x z ≠ Cell.startM) ∧
      (∀ x z : Int, (x, z) ≠ o.gen.endPos → o.st.cell x z = Cell.wall)) := by
  subst ho
  obtain ⟨r2, hEq⟩ := generate_eq_generateFrom p r
  rw [hEq, generateFrom_gen]
  obtain ⟨s3, hst, hInv, hNM, hdeg, _, _⟩ := generateFrom_master p hp r2
  rw [hst]
  have hstart := init_start_interior p hp.1 hp.2.1
  have hend := init_end_interior p hp.2.2.1 hp.2.2.2.1
  refine ⟨St.write_cell_self (interior_inBounds hend), ?_, ?_, ?_⟩
  · intro x z hcell
    by_cases hxe : (x, z) = (Gen.init p).endPos
    · exact hxe
    · exfalso
      rw [St.write_cell_ne (pair_ne hxe)] at hcell
      by_cases hxs : (x, z) = (Gen.init p).startPos
      · rw [show x = (Gen.init p).startPos.1 from congrArg Prod.fst hxs,
            show z = (Gen.init p).startPos.2 from congrArg Prod.snd hxs,
            St.write_cell_self (interior_inBounds hstart)] at hcell
        exact Cell.noConfusion hcell
      · rw [St.write_cell_ne (pair_ne hxs)] at hcell
        rcases hNM x z with h | h <;> rw [h] at hcell <;> exact Cell.noConfusion hcell
  · intro hSE x z
    constructor
    · intro hcell
      by_cases hxe : (x, z) = (Gen.init p).endPos
      · exfalso
        rw [show x = (Gen.init p).endPos.1 from congrArg Prod.fst hxe,
            show z = (Gen.init p).endPos.2 from congrArg Prod.snd hxe,
            St.write_cell_self (interior_inBounds hend)] at hcell
        exact Cell.noConfusion hcell
      · rw [St.write_cell_ne (pair_ne hxe)] at hcell
        by_cases hxs : (x, z) = (Gen.init p).startPos
        · exact hxs
        · exfalso
          rw [St.write_cell_ne (pair_ne hxs)] at hcell
          rcases hNM x z with h | h <;> rw [h] at hcell <;> exact Cell.noConfusion hcell
    · intro hxs
      have hne : ((x, z) : Int × Int) ≠ (Gen.init p).endPos := by
        rw [hxs]
        exact hSE
      rw [St.write_cell_ne (pair_ne hne),
          show x = (Gen.init p).startPos.1 from congrArg Prod.fst hxs,
          show z = (Gen.init p).startPos.2 from congrArg Prod.snd hxs]
      exact St.write_cell_self (interior_inBounds hstart)
  · intro hSE
    obtain ⟨hs3, _⟩ := hdeg hSE
    subst hs3
    constructor
    · intro x z hcell
      by_cases hxe : (x, z) = (Gen.init p).endPos
      · rw [show x = (Gen.init p).endPos.1 from congrArg Prod.fst hxe,
            show z = (Gen.init p).endPos.2 from congrArg Prod.snd hxe,
            St.write_cell_self (interior_inBounds hend)] at hcell
        exact Cell.noConfusion hcell
      · rw [St.write_cell_ne (pair_ne hxe)] at hcell
        have hxs : ((x, z) : Int × Int) ≠ (Gen.init p).startPos := by
          rw [hSE]
          exact hxe
        rw [St.write_cell_ne (pair_ne hxs)] at hcell
        exact Cell.noConfusion hcell
    · intro x z hxe
      rw [St.write_cell_ne (pair_ne hxe)]
      have hxs : ((x, z) : Int × Int) ≠ (Gen.init p).startPos := by
        rw [hSE]
        exact hxe
      rw [St.write_cell_ne (pair_ne hxs)]
      rfl

theorem claim_C6_witness :
    (generate pDegenerate zeroStream).st.cell (generate pDegenerate zeroStream).gen.endPos.1
      (generate pDegenerate zeroStream).gen.endPos.2 = Cell.endM :=
  (claim_C6 pDegenerate (by decide) zeroStream (generate pDegenerate zeroStream) rfl).1

/-- C8 amended: with branching on, the number of `WALL → PATH` flips made by
dead-end growth (read off the `cells_to_add` counter, which decrements
exactly once per flip) is nonnegative and at most
`floor(0.2 · |initial cells|) + spacing`: the final carve may overshoot the
budget by up to `spacing` cells because the budget is only tested at the top
of the loop and one carve flips at most `step = spacing + 1` cells, of which
the first is never `WALL`.  The loop stops when the budget is zero or
negative, or the frontier is exhausted. -/
theorem claim_C8 (p : Params) (hp : p.valid) (hbr : p.branching = true) (r : Rng)
    (o : Out) (ho : o = generate p r) :
    0 ≤ ((o.carved.length / 5 : Nat) : Int) - o.finalBudget ∧
    ((o.carved.length / 5 : Nat) : Int) - o.finalBudget
      ≤ ((o.carved.length / 5 : Nat) : Int) + (p.spacing : Int) ∧
    (∀ (fuel : Nat) (s : St) (r0 : Rng) (b : Int),
      branchLoop o.gen fuel s r0 b [] = (s, r0, b)) ∧
    (∀ (fuel : Nat) (s : St) (r0 : Rng) (b : Int) (stack : List (Int × Int)), b ≤ 0 →
      branchLoop o.gen fuel s r0 b stack = (s, r0, b)) := by
  subst ho
  obtain ⟨r2, hEq⟩ := generate_eq_generateFrom p r
  rw [hEq, generateFrom_gen]
  obtain ⟨s3, _, _, _, _, hle, hlow⟩ := generateFrom_master p hp r2
  rw [init_step] at hlow
  refine ⟨by omega, by omega, ?_, ?_⟩
  · intro fuel s r0 b
    exact branchLoop_stack_nil _ _ _ _ _
  · intro fuel s r0 b stack hb
    exact branchLoop_nonpos _ _ _ _ hb _

theorem claim_C8_witness :
    0 ≤ (((generate pSmallBranch zeroStream).carved.length / 5 : Nat) : Int)
      - (generate pSmallBranch zeroStream).finalBudget :=
  (claim_C8 pSmallBranch (by decide) rfl zeroStream (generate pSmallBranch zeroStream) rfl).1


end Pcg
